import Mathlib

set_option autoImplicit false

/-!
Shallow embedding of `src/session/groups.rs` (group tree, mutations, and the
flattened view projection), with theorems checking the specification's claims
about it.

Modelling conventions:
* Rust `String` is Lean `String`; Rust string order (UTF-8 byte order) is
  code-point lexicographic order, modelled on `String.data`.
* `HashMap<String, Group>` is an association list with unique keys; it is only
  observed through `contains_key`, `get`, `insert`, `remove` and `keys`-as-a-set,
  so the entry order is never visible.
* `Vec<T>` is `List T`.
* `slice::sort_by_key` is a stable sort; for the total, transitive key orders
  used in this file every stable sort produces the same list, and insertion
  sort is taken as the executable model.
* Recursion that Rust performs on paths stored in the map (`build_children`)
  or on a nested tree (`flatten_group`) is modelled with an explicit fuel
  argument large enough to never run out on the states the program reaches.
-/

namespace Aoe

/-- Characters of a string split at every occurrence of `sep`, as in Rust
`str::split(sep)`: `"" ↦ [""]`, `"a//b" ↦ ["a", "", "b"]`. -/
def splitChars (sep : Char) : List Char → List (List Char)
  | [] => [[]]
  | c :: cs =>
    if c = sep then [] :: splitChars sep cs
    else
      match splitChars sep cs with
      | [] => [[c]]
      | h :: t => (c :: h) :: t

/-- Rust `path.split('/')` collected to a list. -/
def splitSlash (s : String) : List String :=
  (splitChars '/' s.data).map fun l => ⟨l⟩

/-- Rust `str::starts_with` for a string pattern. -/
def strStartsWith (s pat : String) : Bool :=
  pat.data.isPrefixOf s.data

/-- Rust `str::contains(c)` for a char pattern. -/
def strContains (s : String) (c : Char) : Bool :=
  s.data.contains c

/-- Drop the first `n` characters (Rust byte slicing `s[n..]` in the cases used
here, where the cut is on a character boundary). -/
def strDropChars (s : String) (n : Nat) : String :=
  ⟨s.data.drop n⟩

/-- Rust `str::to_lowercase` (faithful on the ASCII range). -/
def strToLower (s : String) : String :=
  ⟨s.data.map Char.toLower⟩

/-- Lexicographic order on character lists: Rust's `Ord` on `String`
(UTF-8 byte order coincides with code-point order). -/
def charListLe : List Char → List Char → Bool
  | [], _ => true
  | _ :: _, [] => false
  | a :: as, b :: bs => if a < b then true else if b < a then false else charListLe as bs

/-- Rust `String` `≤`. -/
def strLe (a b : String) : Bool :=
  charListLe a.data b.data

/-- Insert `a` into `l` before the first element `b` with `le a b`. -/
def insertLe {α : Type} (le : α → α → Bool) (a : α) : List α → List α
  | [] => [a]
  | b :: l => if le a b then a :: b :: l else b :: insertLe le a l

/-- Stable sort used as the model of Rust's (stable) `sort_by_key`. -/
def sortLe {α : Type} (le : α → α → Bool) : List α → List α
  | [] => []
  | a :: l => insertLe le a (sortLe le l)

/-- The session type, `Instance`.  Modelled from the spec: `Instance` is
declared in `src/session` outside the given sources; §3 of the spec lists a
unique `id`, a human `title`, a working-copy `path`, a textual `group_path`
(`""` if ungrouped) and a monotonic creation timestamp.  Only the fields the
group-tree code reads are kept. -/
structure Instance where
  id : String
  title : String
  path : String
  group_path : String
  created_at : Nat
deriving DecidableEq

/-- `Group` from `groups.rs` (recursive through `children`, hence an
inductive). -/
inductive Group where
  | mk (name : String) (path : String) (collapsed : Bool) (children : List Group)

def Group.name : Group → String
  | .mk n _ _ _ => n

def Group.path : Group → String
  | .mk _ p _ _ => p

def Group.collapsed : Group → Bool
  | .mk _ _ c _ => c

def Group.children : Group → List Group
  | .mk _ _ _ ch => ch

/-- `Group::new(name, path)`. -/
def Group.new (name path : String) : Group :=
  .mk name path false []

/-- `SortOrder` is declared in `src/session/config.rs`, which is not among the
given sources.  Its variants as consumed by `groups.rs` are exactly `None`,
`AZ` and `ZA`: the `match` in `sort_by_key` is exhaustive over these three and
the module's own test `test_sort_order_cycle` cycles `None → AZ → ZA → None`. -/
inductive SortOrder where
  | None
  | AZ
  | ZA
deriving DecidableEq

/-- `Item` from `groups.rs`. -/
inductive Item where
  | Group (path : String) (name : String) (depth : Nat) (collapsed : Bool)
      (session_count : Nat)
  | Session (id : String) (depth : Nat)
deriving DecidableEq

/-- `HashMap::contains_key`. -/
def containsKey (m : List (String × Group)) (k : String) : Bool :=
  m.any fun kv => kv.fst == k

/-- `HashMap::get`. -/
def lookupA (m : List (String × Group)) (k : String) : Option Group :=
  (m.find? fun kv => kv.fst == k).map Prod.snd

/-- `HashMap::insert` (replace if the key exists, add otherwise). -/
def insertA (m : List (String × Group)) (k : String) (v : Group) : List (String × Group) :=
  if containsKey m k then m.map fun kv => if kv.fst == k then (k, v) else kv
  else m ++ [(k, v)]

/-- `HashMap::keys` (observed only as a set). -/
def keysOf (m : List (String × Group)) : List String :=
  m.map Prod.fst

/-- `GroupTree` from `groups.rs`. -/
structure GroupTree where
  roots : List Group
  groups_by_path : List (String × Group)
  insertion_order : List String

/-- The loop of `ensure_group_exists`: walk the `/`-separated parts, extending
the cumulative path (`'/'` is pushed before every part except the first) and
inserting a fresh `Group` for every cumulative path not yet present. -/
def ensureParts : List String → String → Bool → GroupTree → GroupTree
  | [], _, _, t => t
  | part :: rest, cur, isFirst, t =>
    let cur' := (if isFirst then cur else cur ++ "/") ++ part
    let t' :=
      if containsKey t.groups_by_path cur' then t
      else { t with
          groups_by_path := insertA t.groups_by_path cur' (Group.new part cur'),
          insertion_order := t.insertion_order ++ [cur'] }
    ensureParts rest cur' false t'

/-- `GroupTree::ensure_group_exists`. -/
def GroupTree.ensure_group_exists (t : GroupTree) (path : String) : GroupTree :=
  if containsKey t.groups_by_path path then t
  else ensureParts (splitSlash path) "" true t

/-- `GroupTree::build_children`, with fuel.  Rust recurses from a group to
groups whose paths are strictly longer keys of the map, so the recursion depth
is bounded by the number of keys; the fuel passed by `rebuild_tree` is larger
and never runs out. -/
def GroupTree.build_children : Nat → GroupTree → Group → Group
  | 0, _, parent => parent
  | fuel + 1, t, parent =>
    let pfx := parent.path ++ "/"
    let child_paths := t.insertion_order.filter fun p =>
      containsKey t.groups_by_path p && strStartsWith p pfx
        && !(strContains (strDropChars p pfx.data.length) '/')
    let children := child_paths.filterMap fun p => lookupA t.groups_by_path p
    Group.mk parent.name parent.path parent.collapsed
      (children.map fun c => GroupTree.build_children fuel t c)

/-- `GroupTree::rebuild_tree`. -/
def GroupTree.rebuild_tree (t : GroupTree) : GroupTree :=
  let root_paths := t.insertion_order.filter fun p =>
    containsKey t.groups_by_path p && !(strContains p '/')
  let root_groups := root_paths.filterMap fun p => lookupA t.groups_by_path p
  { t with roots :=
      root_groups.map fun r => GroupTree.build_children (t.groups_by_path.length + 1) t r }

/-- The body of the first loop of `new_with_groups`: register an existing
group verbatim (map insert plus insertion-order push). -/
def registerGroup (t : GroupTree) (g : Group) : GroupTree :=
  { t with
      groups_by_path := insertA t.groups_by_path g.path g,
      insertion_order := t.insertion_order ++ [g.path] }

/-- The body of the second loop of `new_with_groups`: ensure the group of one
instance exists (skipping ungrouped instances). -/
def ensureInstance (t : GroupTree) (i : Instance) : GroupTree :=
  if i.group_path == "" then t else t.ensure_group_exists i.group_path

/-- `GroupTree::new_with_groups`. -/
def GroupTree.new_with_groups (instances : List Instance) (existing_groups : List Group) :
    GroupTree :=
  let t0 : GroupTree := ⟨[], [], []⟩
  let t1 := existing_groups.foldl registerGroup t0
  let t2 := instances.foldl ensureInstance t1
  t2.rebuild_tree

/-- `GroupTree::create_group`. -/
def GroupTree.create_group (t : GroupTree) (path : String) : GroupTree :=
  (t.ensure_group_exists path).rebuild_tree

/-- `GroupTree::delete_group`. -/
def GroupTree.delete_group (t : GroupTree) (path : String) : GroupTree :=
  let pfx := path ++ "/"
  let to_remove := (keysOf t.groups_by_path).filter fun p => p == path || strStartsWith p pfx
  let m := t.groups_by_path.filter fun kv => !(to_remove.contains kv.fst)
  let ord := t.insertion_order.filter fun p => !(to_remove.contains p)
  GroupTree.rebuild_tree { t with groups_by_path := m, insertion_order := ord }

/-- `GroupTree::group_exists`. -/
def GroupTree.group_exists (t : GroupTree) (path : String) : Bool :=
  containsKey t.groups_by_path path

/-- `GroupTree::get_all_groups`. -/
def GroupTree.get_all_groups (t : GroupTree) : List Group :=
  t.insertion_order.filterMap fun p => lookupA t.groups_by_path p

/-- `GroupTree::get_roots`. -/
def GroupTree.get_roots (t : GroupTree) : List Group :=
  t.roots

/-- `GroupTree::toggle_collapsed`. -/
def GroupTree.toggle_collapsed (t : GroupTree) (path : String) : GroupTree :=
  match lookupA t.groups_by_path path with
  | none => t
  | some g =>
    GroupTree.rebuild_tree
      { t with groups_by_path :=
          insertA t.groups_by_path path (Group.mk g.name g.path (!g.collapsed) g.children) }

/-- `sort_by_key` from `groups.rs`: `None` keeps the order, `AZ` sorts by the
lowercased key ascending, `ZA` by the lowercased key descending (the `Reverse`
wrapper flips the comparison). -/
def sort_by_key {α : Type} (items : List α) (sort_order : SortOrder) (key : α → String) :
    List α :=
  match sort_order with
  | SortOrder.None => items
  | SortOrder.AZ => sortLe (fun a b => strLe (strToLower (key a)) (strToLower (key b))) items
  | SortOrder.ZA => sortLe (fun a b => strLe (strToLower (key b)) (strToLower (key a))) items

/-- `count_sessions_in_group`. -/
def count_sessions_in_group (path : String) (instances : List Instance) : Nat :=
  let pfx := path ++ "/"
  (instances.filter fun i => i.group_path == path || strStartsWith i.group_path pfx).length

/-- `flatten_group`, with fuel for the recursion through `children`; the
wrapper `flatten_group` passes fuel larger than the tree height, so the `0`
case is never reached. -/
def flattenGroupAux : Nat → Group → List Instance → Nat → SortOrder → List Item
  | 0, _, _, _, _ => []
  | fuel + 1, group, instances, depth, sort_order =>
    let session_count := count_sessions_in_group group.path instances
    let head := Item.Group group.path group.name depth group.collapsed session_count
    if group.collapsed then [head]
    else
      let group_sessions :=
        sort_by_key (instances.filter fun i => i.group_path == group.path) sort_order
          (fun i => i.title)
      let sessionItems := group_sessions.map fun i => Item.Session i.id (depth + 1)
      let children_to_iterate := sort_by_key group.children sort_order Group.name
      head :: (sessionItems ++
        (children_to_iterate.map fun c =>
          flattenGroupAux fuel c instances (depth + 1) sort_order).flatten)

mutual

/-- Fuel that strictly dominates a group's subtree height. -/
def Group.fuelOf : Group → Nat
  | .mk _ _ _ ch => Group.fuelListOf ch + 1

def Group.fuelListOf : List Group → Nat
  | [] => 0
  | g :: gs => Group.fuelOf g + Group.fuelListOf gs

end

/-- `flatten_group` from `groups.rs`. -/
def flatten_group (group : Group) (instances : List Instance) (depth : Nat)
    (sort_order : SortOrder) : List Item :=
  flattenGroupAux (Group.fuelOf group) group instances depth sort_order

/-- `flatten_tree` from `groups.rs`. -/
def flatten_tree (group_tree : GroupTree) (instances : List Instance)
    (sort_order : SortOrder) : List Item :=
  let ungrouped := instances.filter fun i => i.group_path == ""
  let ungroupedSorted := sort_by_key ungrouped sort_order fun i => i.title
  let sessionItems := ungroupedSorted.map fun i => Item.Session i.id 0
  let roots_to_iterate := sort_by_key group_tree.get_roots sort_order Group.name
  sessionItems ++ (roots_to_iterate.map fun r => flatten_group r instances 0 sort_order).flatten

/-! ### Specification-side vocabulary (paths, ancestors, closure) -/

/-- Join path segments with `/` (left inverse of `splitSlash`). -/
def joinSlash : List String → String
  | [] => ""
  | [p] => p
  | p :: ps => p ++ "/" ++ joinSlash ps

/-- The cumulative paths built by the `ensure_group_exists` loop: the running
path after each part is appended. -/
def cumFrom : String → Bool → List String → List String
  | _, _, [] => []
  | cur, isFirst, part :: rest =>
    let cur' := (if isFirst then cur else cur ++ "/") ++ part
    cur' :: cumFrom cur' false rest

/-- All cumulative `/`-prefixes of a path, ending with the path itself:
`cumPaths "a/b/c" = ["a", "a/b", "a/b/c"]`. -/
def cumPaths (p : String) : List String :=
  cumFrom "" true (splitSlash p)

/-- The strict prefixes of `p` that end at a `/` boundary:
`slashAncestors "a/b/c" = ["a", "a/b"]`. -/
def slashAncestors (p : String) : List String :=
  (List.range ((splitSlash p).length - 1)).map fun k => joinSlash ((splitSlash p).take (k + 1))

/-- A set of paths is closed under taking `/`-boundary prefixes. -/
def closedUnderParents (keys : List String) : Prop :=
  ∀ p ∈ keys, ∀ q ∈ slashAncestors p, q ∈ keys

instance closedUnderParents.instDecidable (keys : List String) :
    Decidable (closedUnderParents keys) :=
  inferInstanceAs (Decidable (∀ p ∈ keys, ∀ q ∈ slashAncestors p, q ∈ keys))

/-- Number of `/` separators in a path. -/
def slashCount (s : String) : Nat :=
  s.data.count '/'

/-- A tree whose derived `roots` agree with its mapping and insertion order
(every tree produced by the `GroupTree` API is in this state, since every
constructor and mutation ends by calling `rebuild_tree`). -/
def GroupTree.Rebuilt (t : GroupTree) : Prop :=
  t.rebuild_tree = t

/-- Concrete instances for the sort-order counterexample: creation timestamps
are ordered `i1 > i3 > i2`, differently from the title order and from the
reversed title order. -/
def c1insts : List Instance :=
  [⟨"i1", "a", "/w1", "", 3⟩, ⟨"i2", "b", "/w2", "", 1⟩, ⟨"i3", "c", "/w3", "", 2⟩]

/-- The flattened order that the claim's `Newest` row (creation time
descending) would require on `c1insts`. -/
def c1newestOrder : List Item :=
  [Item.Session "i1" 0, Item.Session "i3" 0, Item.Session "i2" 0]

/-- A tree built from an existing group whose parent path is absent:
`new_with_groups` registers existing groups verbatim and only auto-creates
ancestors for instance `group_path`s, so `"a/b"` ends up in the mapping
without `"a"`. -/
def orphanTree : GroupTree :=
  GroupTree.new_with_groups [] [Group.mk "b" "a/b" false []]

/-- Concrete inputs used by witnesses: a collapsed group with one nested
child group. -/
def c4group : Group :=
  Group.mk "w" "work" true [Group.new "s" "work/sub"]

def c4insts : List Instance :=
  [⟨"i1", "direct", "/d", "work", 1⟩, ⟨"i2", "nested", "/n", "work/sub", 2⟩,
   ⟨"i3", "other", "/o", "", 3⟩]

def c7insts : List Instance :=
  [⟨"i1", "a", "/a", "parent", 1⟩, ⟨"i2", "b", "/b", "parent/kid", 2⟩]

def c10inst : Instance :=
  ⟨"o1", "orphan", "/o", "a/b", 1⟩

/-- A tree in which `c10inst`'s group `"a/b"` is a key of the mapping but is
never reached by the roots traversal (its parent `"a"` does not exist). -/
def c10tree : GroupTree :=
  GroupTree.new_with_groups [c10inst] [Group.mk "b" "a/b" false []]

/-- A tree with a nested group, used by the deletion and closure witnesses. -/
def c5tree : GroupTree :=
  GroupTree.new_with_groups
    [⟨"a1", "s1", "/1", "alpha", 1⟩, ⟨"b1", "s2", "/2", "beta", 2⟩,
     ⟨"b2", "s3", "/3", "beta/kid", 3⟩, ⟨"g1", "s4", "/4", "gamma", 4⟩] []

/-- A small rebuilt tree with a single root group. -/
def c9tree : GroupTree :=
  GroupTree.new_with_groups [] [Group.new "g" "g"]

/-- Projection of an `Item` to its session id, when it is a `Session`. -/
def sessionIdOf : Item → Option String
  | .Session i _ => some i
  | .Group _ _ _ _ _ => none

/-- Projection of an `Item` to its group path, when it is a `Group` item. -/
def groupPathOf : Item → Option String
  | .Group p _ _ _ _ => some p
  | .Session _ _ => none

/-- Path `c` covers path `x` when `x` is `c` itself or lies strictly below
it (`x` starts with `c ++ "/"`). -/
def covers (c x : String) : Bool :=
  x == c || strStartsWith x (c ++ "/")

/-- Concrete instances for the structural-flatten witness: one ungrouped
session, a nested group and a second root group. -/
def c8insts : List Instance :=
  [⟨"u1", "ung", "/u", "", 1⟩, ⟨"p1", "one", "/1", "work", 2⟩,
   ⟨"p2", "two", "/2", "work/sub", 3⟩, ⟨"q1", "three", "/3", "play", 4⟩]

/-! ### Lemmas about the stable sort -/

theorem insertLe_perm {α : Type} (le : α → α → Bool) (a : α) (l : List α) :
    List.Perm (insertLe le a l) (a :: l) := by
  induction l with
  | nil => rfl
  | cons b l ih =>
    simp only [insertLe]
    split
    · rfl
    · exact (ih.cons b).trans (List.Perm.swap a b l)

theorem sortLe_perm {α : Type} (le : α → α → Bool) (l : List α) :
    List.Perm (sortLe le l) l := by
  induction l with
  | nil => rfl
  | cons a l ih => exact (insertLe_perm le a (sortLe le l)).trans (ih.cons a)

theorem mem_insertLe {α : Type} {le : α → α → Bool} {a x : α} {l : List α} :
    x ∈ insertLe le a l ↔ x = a ∨ x ∈ l := by
  rw [(insertLe_perm le a l).mem_iff, List.mem_cons]

theorem mem_sortLe {α : Type} {le : α → α → Bool} {x : α} {l : List α} :
    x ∈ sortLe le l ↔ x ∈ l :=
  (sortLe_perm le l).mem_iff

theorem pairwise_insertLe {α : Type} {le : α → α → Bool}
    (htot : ∀ a b, le a b || le b a)
    (htr : ∀ a b c, le a b = true → le b c = true → le a c = true)
    {a : α} {l : List α}
    (hl : l.Pairwise fun x y => le x y = true) :
    (insertLe le a l).Pairwise fun x y => le x y = true := by
  induction l with
  | nil => simp [insertLe]
  | cons b l ih =>
    rw [List.pairwise_cons] at hl
    simp only [insertLe]
    split
    · rename_i hab
      refine List.pairwise_cons.2 ⟨?_, List.pairwise_cons.2 hl⟩
      intro x hx
      rcases List.mem_cons.1 hx with rfl | hx
      · exact hab
      · exact htr a b x hab (hl.1 x hx)
    · rename_i hab
      refine List.pairwise_cons.2 ⟨?_, ih hl.2⟩
      intro x hx
      rcases mem_insertLe.1 hx with heq | hx
      · rcases Bool.or_eq_true_iff.1 (htot a b) with h | h
        · exact absurd h hab
        · rw [heq]; exact h
      · exact hl.1 x hx

theorem pairwise_sortLe {α : Type} {le : α → α → Bool}
    (htot : ∀ a b, le a b || le b a)
    (htr : ∀ a b c, le a b = true → le b c = true → le a c = true)
    (l : List α) :
    (sortLe le l).Pairwise fun x y => le x y = true := by
  induction l with
  | nil => simp [sortLe]
  | cons a l ih => exact pairwise_insertLe htot htr ih

theorem charListLe_total : ∀ a b, (charListLe a b || charListLe b a) = true := by
  intro a
  induction a with
  | nil => intro b; simp [charListLe]
  | cons x xs ih =>
    intro b
    cases b with
    | nil => simp [charListLe]
    | cons y ys =>
      simp only [charListLe]
      rcases lt_trichotomy x y with h | h | h
      · simp [h]
      · subst h
        simp only [lt_irrefl, if_false]
        exact ih ys
      · simp [h, asymm h]

theorem charListLe_trans :
    ∀ a b c, charListLe a b = true → charListLe b c = true → charListLe a c = true := by
  intro a
  induction a with
  | nil => intro b c _ _; rfl
  | cons x xs ih =>
    intro b c hab hbc
    cases b with
    | nil => simp [charListLe] at hab
    | cons y ys =>
      cases c with
      | nil => simp [charListLe] at hbc
      | cons z zs =>
        simp only [charListLe] at hab hbc ⊢
        rcases lt_trichotomy x y with hxy | hxy | hxy
        · rcases lt_trichotomy y z with hyz | hyz | hyz
          · simp [lt_trans hxy hyz]
          · subst hyz; simp [hxy]
          · rw [if_neg (asymm hyz), if_pos hyz] at hbc; simp at hbc
        · subst hxy
          rcases lt_trichotomy x z with hxz | hxz | hxz
          · simp [hxz]
          · subst hxz
            simp only [lt_irrefl, if_false] at hab hbc ⊢
            exact ih ys zs hab hbc
          · rw [if_neg (asymm hxz), if_pos hxz] at hbc; simp at hbc
        · rw [if_neg (asymm hxy), if_pos hxy] at hab; simp at hab

theorem strLe_total (a b : String) : (strLe a b || strLe b a) = true :=
  charListLe_total a.data b.data

theorem strLe_trans {a b c : String} (hab : strLe a b = true) (hbc : strLe b c = true) :
    strLe a c = true :=
  charListLe_trans a.data b.data c.data hab hbc

theorem mem_sort_by_key {α : Type} {items : List α} {s : SortOrder} {key : α → String}
    {x : α} : x ∈ sort_by_key items s key ↔ x ∈ items := by
  cases s <;> simp [sort_by_key, mem_sortLe]

theorem sort_by_key_perm {α : Type} (items : List α) (s : SortOrder) (key : α → String) :
    List.Perm (sort_by_key items s key) items := by
  cases s
  · exact List.Perm.refl items
  · exact sortLe_perm _ items
  · exact sortLe_perm _ items

/-! ### Fuel elimination for `flatten_group` -/

theorem fuelOf_le_fuelListOf {c : Group} {ch : List Group} (h : c ∈ ch) :
    Group.fuelOf c ≤ Group.fuelListOf ch := by
  induction ch with
  | nil => cases h
  | cons g gs ih =>
    rcases List.mem_cons.1 h with rfl | h
    · simp [Group.fuelListOf]
    · calc Group.fuelOf c ≤ Group.fuelListOf gs := ih h
        _ ≤ Group.fuelOf g + Group.fuelListOf gs := Nat.le_add_left _ _
        _ = Group.fuelListOf (g :: gs) := by simp [Group.fuelListOf]

theorem flattenGroupAux_congr :
    ∀ (f₁ : Nat), ∀ {f₂ : Nat} {g : Group} (instances : List Instance) (depth : Nat)
      (sort_order : SortOrder), Group.fuelOf g ≤ f₁ → Group.fuelOf g ≤ f₂ →
      flattenGroupAux f₁ g instances depth sort_order =
        flattenGroupAux f₂ g instances depth sort_order := by
  intro f₁
  induction f₁ with
  | zero =>
    intro f₂ g _ _ _ h₁ _
    cases g with
    | mk n p c ch => simp [Group.fuelOf] at h₁
  | succ f₁ ih =>
    intro f₂ g instances depth sort_order h₁ h₂
    cases g with
    | mk n p c ch =>
      cases f₂ with
      | zero => simp [Group.fuelOf] at h₂
      | succ f₂ =>
        have hg : Group.fuelOf (Group.mk n p c ch) = Group.fuelListOf ch + 1 := by
          simp [Group.fuelOf]
        have hmap :
            List.map (fun x => flattenGroupAux f₁ x instances (depth + 1) sort_order)
                (sort_by_key (Group.mk n p c ch).children sort_order Group.name) =
              List.map (fun x => flattenGroupAux f₂ x instances (depth + 1) sort_order)
                (sort_by_key (Group.mk n p c ch).children sort_order Group.name) := by
          apply List.map_congr_left
          intro x hx
          have hx' : x ∈ ch := by
            simpa [Group.children] using mem_sort_by_key.1 hx
          have hfx : Group.fuelOf x ≤ Group.fuelListOf ch := fuelOf_le_fuelListOf hx'
          rw [hg] at h₁ h₂
          exact ih instances (depth + 1) sort_order (by omega) (by omega)
        simp only [flattenGroupAux]
        rw [hmap]

/-- One-step unfolding of `flatten_group` with the recursive calls again
phrased through `flatten_group`. -/
theorem flatten_group_eq (g : Group) (instances : List Instance) (depth : Nat)
    (sort_order : SortOrder) :
    flatten_group g instances depth sort_order =
      Item.Group g.path g.name depth g.collapsed
          (count_sessions_in_group g.path instances) ::
        (if g.collapsed then [] else
          (sort_by_key (instances.filter fun i => i.group_path == g.path) sort_order
              (fun i => i.title)).map (fun i => Item.Session i.id (depth + 1))
          ++ ((sort_by_key g.children sort_order Group.name).map fun c =>
                flatten_group c instances (depth + 1) sort_order).flatten) := by
  cases g with
  | mk n p c ch =>
    have hmap :
        List.map (fun x => flattenGroupAux (Group.fuelListOf ch) x instances (depth + 1)
              sort_order)
            (sort_by_key (Group.mk n p c ch).children sort_order Group.name) =
          List.map (fun x => flatten_group x instances (depth + 1) sort_order)
            (sort_by_key (Group.mk n p c ch).children sort_order Group.name) := by
      apply List.map_congr_left
      intro x hx
      have hx' : x ∈ ch := by
        simpa [Group.children] using mem_sort_by_key.1 hx
      exact flattenGroupAux_congr _ instances (depth + 1) sort_order
        (fuelOf_le_fuelListOf hx') le_rfl
    show flattenGroupAux (Group.fuelListOf ch + 1) _ _ _ _ = _
    simp only [flattenGroupAux]
    rw [hmap]
    split <;> rfl

/-- Unfolding of `flatten_tree` (the two emission phases: ungrouped sessions,
then the sorted roots). -/
theorem flatten_tree_eq (t : GroupTree) (instances : List Instance) (s : SortOrder) :
    flatten_tree t instances s =
      (sort_by_key (instances.filter fun i => i.group_path == "") s fun i => i.title).map
          (fun i => Item.Session i.id 0)
        ++ ((sort_by_key t.roots s Group.name).map fun r =>
              flatten_group r instances 0 s).flatten := rfl

/-- Every `Group` item emitted by `flattenGroupAux` carries the session count
computed by `count_sessions_in_group` at its own path. -/
theorem groupItem_count_aux :
    ∀ (fuel : Nat) (g : Group) (instances : List Instance) (d : Nat) (s : SortOrder)
      (p n : String) (dd : Nat) (c : Bool) (cnt : Nat),
      Item.Group p n dd c cnt ∈ flattenGroupAux fuel g instances d s →
      cnt = count_sessions_in_group p instances := by
  intro fuel
  induction fuel with
  | zero => intro g instances d s p n dd c cnt h; simp [flattenGroupAux] at h
  | succ fuel ih =>
    intro g instances d s p n dd c cnt h
    simp only [flattenGroupAux] at h
    split at h
    · rcases List.mem_singleton.1 h with h
      cases h
      rfl
    · rcases List.mem_cons.1 h with h | h
      · cases h
        rfl
      · rcases List.mem_append.1 h with h | h
        · rcases List.mem_map.1 h with ⟨i, _, hi⟩
          cases hi
        · rcases List.mem_flatten.1 h with ⟨sub, hsub, hitem⟩
          rcases List.mem_map.1 hsub with ⟨c', _, rfl⟩
          exact ih c' instances (d + 1) s p n dd c cnt hitem

/-- Every `Session` item emitted by `flattenGroupAux` belongs to an instance
whose `group_path` also appears as an emitted `Group` item in the same
output. -/
theorem sessionItem_source_aux :
    ∀ (fuel : Nat) (g : Group) (instances : List Instance) (d : Nat) (s : SortOrder)
      (sid : String) (dd : Nat),
      Item.Session sid dd ∈ flattenGroupAux fuel g instances d s →
      ∃ j ∈ instances, j.id = sid ∧
        ∃ nm dd2 c2 n2, Item.Group j.group_path nm dd2 c2 n2 ∈ flattenGroupAux fuel g instances d s := by
  intro fuel
  induction fuel with
  | zero => intro g instances d s sid dd h; simp [flattenGroupAux] at h
  | succ fuel ih =>
    intro g instances d s sid dd h
    simp only [flattenGroupAux] at h
    split at h
    · rcases List.mem_singleton.1 h with h
      cases h
    · rename_i hcol
      rcases List.mem_cons.1 h with h | h
      · cases h
      · rcases List.mem_append.1 h with h | h
        · rcases List.mem_map.1 h with ⟨i, hi, hieq⟩
          cases hieq
          have hi' : i ∈ instances ∧ i.group_path = g.path := by
            have := mem_sort_by_key.1 hi
            have hmem := List.mem_filter.1 this
            exact ⟨hmem.1, by simpa using hmem.2⟩
          refine ⟨i, hi'.1, rfl, g.name, d, g.collapsed,
            count_sessions_in_group g.path instances, ?_⟩
          rw [hi'.2]
          simp only [flattenGroupAux]
          rw [if_neg hcol]
          exact List.mem_cons_self _ _
        · rcases List.mem_flatten.1 h with ⟨sub, hsub, hitem⟩
          rcases List.mem_map.1 hsub with ⟨c', hc', rfl⟩
          rcases ih c' instances (d + 1) s sid dd hitem with
            ⟨j, hj, hjid, nm, dd2, c2, n2, hg⟩
          refine ⟨j, hj, hjid, nm, dd2, c2, n2, ?_⟩
          simp only [flattenGroupAux]
          rw [if_neg hcol]
          refine List.mem_cons_of_mem _ (List.mem_append_right _ ?_)
          exact List.mem_flatten.2 ⟨_, List.mem_map.2 ⟨c', hc', rfl⟩, hg⟩

/-! ### Claim C1 -/

/-- **C1** (counterexample to the claim as stated).  On `c1insts` — whose
creation timestamps order the sessions as `i1, i3, i2` — no `SortOrder`
accepted by `flatten_tree` produces the creation-time-descending order
required by the claim's `Newest` row: the `SortOrder` consumed by
`sort_by_key` has only `None`, `AZ` and `ZA`, and none of them reads
`created_at`.  The first conjunct certifies that `c1newestOrder` is the
stable creation-time-descending projection of `c1insts`. -/
theorem c1_counterexample :
    c1newestOrder =
      (sortLe (fun a b => decide (b.created_at ≤ a.created_at)) c1insts).map
        (fun i => Item.Session i.id 0)
    ∧ flatten_tree (GroupTree.new_with_groups c1insts []) c1insts SortOrder.None
        ≠ c1newestOrder
    ∧ flatten_tree (GroupTree.new_with_groups c1insts []) c1insts SortOrder.AZ
        ≠ c1newestOrder
    ∧ flatten_tree (GroupTree.new_with_groups c1insts []) c1insts SortOrder.ZA
        ≠ c1newestOrder := by
  refine ⟨by decide, by decide, by decide, by decide⟩

/-- **C1** (amended).  `flatten_tree` orders the ungrouped sessions, each
group's direct sessions (by `title`) and each level of sibling groups (by
`name`) according to the code's `SortOrder` table, which has exactly three
rows: `None` preserves the incoming order, `AZ` sorts by the lowercased key
ascending, `ZA` by the lowercased key descending; the alphabetic sorts are
case-insensitive because the key is lowercased first.  There is no `Newest`
or `Oldest` row: `flatten_tree` never consults `created_at`. -/
theorem c1_theorem {α : Type} (l : List α) (key : α → String) (t : GroupTree)
    (instances : List Instance) :
    sort_by_key l SortOrder.None key = l
    ∧ List.Perm (sort_by_key l SortOrder.AZ key) l
    ∧ (sort_by_key l SortOrder.AZ key).Pairwise
        (fun a b => strLe (strToLower (key a)) (strToLower (key b)) = true)
    ∧ List.Perm (sort_by_key l SortOrder.ZA key) l
    ∧ (sort_by_key l SortOrder.ZA key).Pairwise
        (fun a b => strLe (strToLower (key b)) (strToLower (key a)) = true)
    ∧ (∀ s, flatten_tree t instances s =
        (sort_by_key (instances.filter fun i => i.group_path == "") s fun i => i.title).map
            (fun i => Item.Session i.id 0)
          ++ ((sort_by_key t.roots s Group.name).map fun r =>
                flatten_group r instances 0 s).flatten)
    ∧ (∀ (g : Group) (d : Nat) (s : SortOrder),
        flatten_group g instances d s =
          Item.Group g.path g.name d g.collapsed
              (count_sessions_in_group g.path instances) ::
            (if g.collapsed then [] else
              (sort_by_key (instances.filter fun i => i.group_path == g.path) s
                  (fun i => i.title)).map (fun i => Item.Session i.id (d + 1))
              ++ ((sort_by_key g.children s Group.name).map fun c =>
                    flatten_group c instances (d + 1) s).flatten)) := by
  refine ⟨rfl, sort_by_key_perm l SortOrder.AZ key, ?_,
    sort_by_key_perm l SortOrder.ZA key, ?_, fun s => flatten_tree_eq t instances s,
    fun g d s => flatten_group_eq g instances d s⟩
  · exact @pairwise_sortLe _ (fun a b => strLe (strToLower (key a)) (strToLower (key b)))
      (fun a b => strLe_total _ _) (fun a b c hab hbc => strLe_trans hab hbc) l
  · exact @pairwise_sortLe _ (fun a b => strLe (strToLower (key b)) (strToLower (key a)))
      (fun a b => by rw [Bool.or_comm]; exact strLe_total _ _)
      (fun a b c hab hbc => strLe_trans hbc hab) l

/-! ### Claim C4 -/

/-- **C4**.  A collapsed group still contributes its `Group` item, carrying
the recursive session count over its whole subtree, and contributes nothing
else: no `Session` items for its direct instances and no items at all for its
descendants. -/
theorem c4_theorem (g : Group) (instances : List Instance) (depth : Nat)
    (s : SortOrder) (h : g.collapsed = true) :
    flatten_group g instances depth s =
      [Item.Group g.path g.name depth true
        ((instances.filter fun i =>
            i.group_path == g.path || strStartsWith i.group_path (g.path ++ "/")).length)] := by
  rw [flatten_group_eq, h]
  simp [count_sessions_in_group]

theorem c4_witness :
    c4group.collapsed = true
    ∧ flatten_group c4group c4insts 0 SortOrder.None = [Item.Group "work" "w" 0 true 2] :=
  ⟨rfl, by rw [c4_theorem c4group c4insts 0 SortOrder.None rfl]; decide⟩

/-! ### Claim C7 -/

/-- **C7**.  Every `Group` item in any output of `flatten_tree` carries a
`session_count` equal to the number of given instances whose `group_path`
equals the item's path or starts with that path followed by `/`. -/
theorem c7_theorem (t : GroupTree) (instances : List Instance) (s : SortOrder)
    (p n : String) (d : Nat) (c : Bool) (cnt : Nat)
    (hmem : Item.Group p n d c cnt ∈ flatten_tree t instances s) :
    cnt = (instances.filter fun i =>
        i.group_path == p || strStartsWith i.group_path (p ++ "/")).length := by
  rw [flatten_tree_eq] at hmem
  rcases List.mem_append.1 hmem with h | h
  · rcases List.mem_map.1 h with ⟨i, _, hi⟩
    cases hi
  · rcases List.mem_flatten.1 h with ⟨sub, hsub, hitem⟩
    rcases List.mem_map.1 hsub with ⟨r, _, rfl⟩
    exact groupItem_count_aux _ r instances 0 s p n d c cnt hitem

theorem c7_witness :
    Item.Group "parent" "parent" 0 false 2 ∈
      flatten_tree (GroupTree.new_with_groups c7insts []) c7insts SortOrder.None
    ∧ (2 : Nat) =
      (c7insts.filter fun i =>
        i.group_path == "parent" || strStartsWith i.group_path ("parent" ++ "/")).length :=
  ⟨by decide,
    c7_theorem (GroupTree.new_with_groups c7insts []) c7insts SortOrder.None
      "parent" "parent" 0 false 2 (by decide)⟩

/-! ### Claim C10 -/

/-- **C10**.  An instance whose non-empty `group_path` is not the path of any
`Group` item emitted by `flatten_tree` appears in no item of the output: it is
silently hidden (instance ids are unique per the spec, so the instance is
identified by its id). -/
theorem c10_theorem (t : GroupTree) (instances : List Instance) (s : SortOrder)
    (i : Instance) (hi : i ∈ instances) (hne : i.group_path ≠ "")
    (hnodup : (instances.map Instance.id).Nodup)
    (hhidden : ∀ nm d c n, Item.Group i.group_path nm d c n ∉ flatten_tree t instances s)
    (d : Nat) :
    Item.Session i.id d ∉ flatten_tree t instances s := by
  intro hmem
  rw [flatten_tree_eq] at hmem
  have hinj := List.inj_on_of_nodup_map hnodup
  rcases List.mem_append.1 hmem with h | h
  · rcases List.mem_map.1 h with ⟨j, hj, hjeq⟩
    have hj' := List.mem_filter.1 (mem_sort_by_key.1 hj)
    have hid : j.id = i.id := by injection hjeq
    have : j = i := hinj hj'.1 hi hid
    subst this
    exact hne (by simpa using hj'.2)
  · rcases List.mem_flatten.1 h with ⟨sub, hsub, hitem⟩
    rcases List.mem_map.1 hsub with ⟨r, hr, rfl⟩
    rcases sessionItem_source_aux _ r instances 0 s i.id d hitem with
      ⟨j, hj, hjid, nm, dd2, c2, n2, hg⟩
    have : j = i := hinj hj hi hjid
    subst this
    refine hhidden nm dd2 c2 n2 ?_
    rw [flatten_tree_eq]
    refine List.mem_append_right _ ?_
    exact List.mem_flatten.2 ⟨_, List.mem_map.2 ⟨r, hr, rfl⟩, hg⟩

theorem c10_witness :
    c10inst ∈ [c10inst]
    ∧ c10inst.group_path ≠ ""
    ∧ (([c10inst] : List Instance).map Instance.id).Nodup
    ∧ (∀ nm d c n, Item.Group c10inst.group_path nm d c n ∉
        flatten_tree c10tree [c10inst] SortOrder.None)
    ∧ Item.Session c10inst.id 0 ∉ flatten_tree c10tree [c10inst] SortOrder.None :=
  ⟨by decide, by decide, by decide,
    by
      intro nm d c n
      rw [show flatten_tree c10tree [c10inst] SortOrder.None = [] from rfl]
      simp,
    c10_theorem c10tree [c10inst] SortOrder.None c10inst (by decide) (by decide) (by decide)
      (by
        intro nm d c n
        rw [show flatten_tree c10tree [c10inst] SortOrder.None = [] from rfl]
        simp)
      0⟩

/-! ### Association-map lemmas -/

theorem containsKey_iff {m : List (String × Group)} {k : String} :
    containsKey m k = true ↔ k ∈ keysOf m := by
  simp only [containsKey, List.any_eq_true, keysOf, List.mem_map, beq_iff_eq]

theorem lookupA_eq_none {m : List (String × Group)} {k : String}
    (h : containsKey m k = false) : lookupA m k = none := by
  rw [lookupA, List.find?_eq_none.2, Option.map_none']
  intro kv hkv hbeq
  have hc : containsKey m k = true := by
    simp only [containsKey, List.any_eq_true]
    exact ⟨kv, hkv, hbeq⟩
  rw [hc] at h; cases h

theorem lookupA_isSome_of_contains {m : List (String × Group)} {k : String}
    (h : containsKey m k = true) : ∃ v, lookupA m k = some v := by
  simp only [containsKey, List.any_eq_true] at h
  have hs : (m.find? fun kv => kv.fst == k).isSome = true := List.find?_isSome.2 h
  rcases Option.isSome_iff_exists.1 hs with ⟨kv, hkv⟩
  exact ⟨kv.snd, by rw [lookupA, hkv]; rfl⟩

theorem fst_insertA_entry {k : String} {v : Group} (kv : String × Group) :
    (if kv.fst == k then (k, v) else kv).fst = kv.fst := by
  split
  · rename_i h; simpa using (beq_iff_eq.1 h).symm
  · rfl

theorem keysOf_insertA {m : List (String × Group)} {k : String} {v : Group} :
    keysOf (insertA m k v) = if containsKey m k then keysOf m else keysOf m ++ [k] := by
  rw [insertA]
  split
  · simp only [keysOf, List.map_map]
    exact List.map_congr_left fun kv _ => fst_insertA_entry kv
  · simp [keysOf]

theorem containsKey_insertA {m : List (String × Group)} {k k' : String} {v : Group} :
    containsKey (insertA m k v) k' = true ↔ (containsKey m k' = true ∨ k' = k) := by
  rw [containsKey_iff, keysOf_insertA]
  split
  · rename_i hc
    rw [← containsKey_iff]
    constructor
    · exact Or.inl
    · rintro (h | rfl)
      · exact h
      · exact hc
  · rw [List.mem_append, List.mem_singleton, ← containsKey_iff]

theorem lookupA_insertA_self {m : List (String × Group)} {k : String} {v : Group} :
    lookupA (insertA m k v) k = some v := by
  rw [insertA]
  split
  · rename_i hc
    rw [lookupA, List.find?_map]
    have hpred : ((fun kv : String × Group => kv.fst == k) ∘ fun kv =>
        if kv.fst == k then (k, v) else kv) = fun kv : String × Group => kv.fst == k := by
      funext kv
      simp only [Function.comp]
      rw [fst_insertA_entry]
    rw [hpred]
    rcases h : m.find? (fun kv => kv.fst == k) with _ | kv₀
    · exfalso
      have hex : ∃ kv ∈ m, (kv.fst == k) = true := by
        simpa only [containsKey, List.any_eq_true] using hc
      rcases hex with ⟨kv, hm, hb⟩
      exact List.find?_eq_none.1 h kv hm hb
    · have hb := List.find?_some h
      rw [h, Option.map_some', Option.map_some', if_pos hb]
  · rename_i hc
    rw [lookupA, List.find?_append]
    have h1 : m.find? (fun kv => kv.fst == k) = none := by
      rw [List.find?_eq_none]
      intro kv hkv hb
      exact hc (by simp only [containsKey, List.any_eq_true]; exact ⟨kv, hkv, hb⟩)
    rw [h1]
    simp [List.find?_cons]

theorem lookupA_insertA_ne {m : List (String × Group)} {k k' : String} {v : Group}
    (hne : k' ≠ k) : lookupA (insertA m k v) k' = lookupA m k' := by
  rw [insertA]
  split
  · rw [lookupA, lookupA, List.find?_map]
    have hpred : ((fun kv : String × Group => kv.fst == k') ∘ fun kv =>
        if kv.fst == k then (k, v) else kv) = fun kv : String × Group => kv.fst == k' := by
      funext kv
      simp only [Function.comp]
      rw [fst_insertA_entry]
    rw [hpred]
    rcases h : m.find? (fun kv => kv.fst == k') with _ | kv₀
    · rw [h]; rfl
    · have hb := List.find?_some h
      have he : (if (kv₀.fst == k) = true then (k, v) else kv₀) = kv₀ := by
        rw [if_neg]
        intro hb2
        exact hne (by rw [← beq_iff_eq.1 hb, beq_iff_eq.1 hb2])
      rw [h, Option.map_some', Option.map_some', he, Option.map_some']
  · rw [lookupA, lookupA, List.find?_append]
    rcases h : m.find? (fun kv => kv.fst == k') with _ | kv₀
    · have hkk' : (k == k') = false := by simpa using Ne.symm hne
      rw [h, Option.none_or]
      simp [List.find?_cons, hkk']
    · rw [h]; rfl

/-! ### Split/join toolkit for `/`-separated paths -/

theorem splitChars_ne_nil (sep : Char) : ∀ xs : List Char, splitChars sep xs ≠ [] := by
  intro xs
  cases xs with
  | nil => simp [splitChars]
  | cons c cs =>
    simp only [splitChars]
    split
    · simp
    · rcases h : splitChars sep cs with _ | ⟨hd, tl⟩ <;> simp

theorem splitChars_append_sep (sep : Char) :
    ∀ xs ys : List Char,
      splitChars sep (xs ++ sep :: ys) = splitChars sep xs ++ splitChars sep ys := by
  intro xs ys
  induction xs with
  | nil => simp [splitChars]
  | cons c xs ih =>
    by_cases hc : c = sep
    · simp only [List.cons_append, splitChars, if_pos hc]
      exact congrArg ([] :: ·) ih
    · simp only [List.cons_append, splitChars, if_neg hc]
      simp only [List.append_eq]
      rw [ih]
      rcases h : splitChars sep xs with _ | ⟨hd, tl⟩
      · exact absurd h (splitChars_ne_nil sep xs)
      · rfl

theorem not_mem_of_mem_splitChars (sep : Char) :
    ∀ (xs : List Char) (l : List Char), l ∈ splitChars sep xs → sep ∉ l := by
  intro xs
  induction xs with
  | nil =>
    intro l hl
    simp only [splitChars, List.mem_singleton] at hl
    subst hl; simp
  | cons c cs ih =>
    intro l hl
    simp only [splitChars] at hl
    by_cases hc : c = sep
    · rw [if_pos hc] at hl
      rcases List.mem_cons.1 hl with rfl | hl
      · simp
      · exact ih l hl
    · rw [if_neg hc] at hl
      rcases h : splitChars sep cs with _ | ⟨hd, tl⟩
      · exact absurd h (splitChars_ne_nil sep cs)
      · rw [h] at hl
        rcases List.mem_cons.1 hl with rfl | hl
        · intro hmem
          rcases List.mem_cons.1 hmem with rfl | hmem
          · exact hc rfl
          · exact ih hd (h ▸ List.mem_cons_self hd tl) hmem
        · exact ih l (h ▸ List.mem_cons_of_mem hd hl)

theorem splitChars_of_not_mem (sep : Char) :
    ∀ xs : List Char, sep ∉ xs → splitChars sep xs = [xs] := by
  intro xs
  induction xs with
  | nil => intro; rfl
  | cons c cs ih =>
    intro h
    have hc : c ≠ sep := fun hcc => h (hcc ▸ List.mem_cons_self c cs)
    have hcs : sep ∉ cs := fun hm => h (List.mem_cons_of_mem c hm)
    simp only [splitChars, if_neg hc, ih hcs]

/-- Character-level join with a separator, mirroring `joinSlash`. -/
def charJoin (sep : Char) : List (List Char) → List Char
  | [] => []
  | [l] => l
  | l :: ls => l ++ sep :: charJoin sep ls

theorem charJoin_splitChars (sep : Char) :
    ∀ xs : List Char, charJoin sep (splitChars sep xs) = xs := by
  intro xs
  induction xs with
  | nil => rfl
  | cons c cs ih =>
    simp only [splitChars]
    by_cases hc : c = sep
    · rw [if_pos hc]
      rcases h : splitChars sep cs with _ | ⟨hd, tl⟩
      · exact absurd h (splitChars_ne_nil sep cs)
      · rw [h] at ih
        subst hc
        show charJoin c ([] :: hd :: tl) = c :: cs
        simp only [charJoin, List.nil_append]
        rw [← ih]
    · rw [if_neg hc]
      rcases h : splitChars sep cs with _ | ⟨hd, tl⟩
      · exact absurd h (splitChars_ne_nil sep cs)
      · rw [h] at ih
        cases tl with
        | nil =>
          show charJoin sep [c :: hd] = c :: cs
          simp only [charJoin]
          simpa [charJoin] using congrArg (c :: ·) ih
        | cons l ls =>
          show charJoin sep ((c :: hd) :: l :: ls) = c :: cs
          simp only [charJoin] at ih ⊢
          rw [← ih]
          simp

theorem splitChars_charJoin (sep : Char) :
    ∀ ls : List (List Char), ls ≠ [] → (∀ l ∈ ls, sep ∉ l) →
      splitChars sep (charJoin sep ls) = ls := by
  intro ls
  induction ls with
  | nil => intro h; exact absurd rfl h
  | cons l ls ih =>
    intro _ hmem
    cases ls with
    | nil =>
      show splitChars sep l = [l]
      exact splitChars_of_not_mem sep l (hmem l (List.mem_cons_self l []))
    | cons l' ls' =>
      show splitChars sep (l ++ sep :: charJoin sep (l' :: ls')) = l :: l' :: ls'
      rw [splitChars_append_sep, splitChars_of_not_mem sep l (hmem l (List.mem_cons_self _ _)),
        ih (by simp) (fun x hx => hmem x (List.mem_cons_of_mem l hx))]
      rfl

theorem slash_data : "/".data = ['/'] := rfl

theorem joinSlash_data : ∀ l : List String, (joinSlash l).data = charJoin '/' (l.map String.data)
  | [] => rfl
  | [p] => rfl
  | p :: p' :: ps => by
    show (p ++ "/" ++ joinSlash (p' :: ps)).data = _
    rw [String.data_append, String.data_append, slash_data, joinSlash_data (p' :: ps),
      List.map_cons]
    show _ = p.data ++ '/' :: charJoin '/' ((p' :: ps).map String.data)
    simp

theorem splitSlash_data (s : String) :
    (splitSlash s).map String.data = splitChars '/' s.data := by
  rw [splitSlash, List.map_map]
  have : (String.data ∘ fun l : List Char => (⟨l⟩ : String)) = id := by
    funext l; rfl
  rw [this, List.map_id]

theorem splitSlash_ne_nil (s : String) : splitSlash s ≠ [] := by
  intro h
  have := splitChars_ne_nil '/' s.data
  rw [← splitSlash_data, h] at this
  exact this rfl

theorem joinSlash_splitSlash (s : String) : joinSlash (splitSlash s) = s := by
  apply String.ext
  rw [joinSlash_data, splitSlash_data, charJoin_splitChars]

theorem mem_splitSlash_no_slash {s q : String} (h : q ∈ splitSlash s) :
    strContains q '/' = false := by
  have hd : q.data ∈ (splitSlash s).map String.data := List.mem_map_of_mem String.data h
  rw [splitSlash_data] at hd
  have := not_mem_of_mem_splitChars '/' s.data q.data hd
  simpa [strContains] using this

theorem splitSlash_joinSlash {l : List String} (hne : l ≠ [])
    (hns : ∀ q ∈ l, strContains q '/' = false) : splitSlash (joinSlash l) = l := by
  have hdata : (splitSlash (joinSlash l)).map String.data = l.map String.data := by
    rw [splitSlash_data, joinSlash_data, splitChars_charJoin]
    · simpa using hne
    · intro x hx
      rcases List.mem_map.1 hx with ⟨q, hq, rfl⟩
      have := hns q hq
      simpa [strContains] using this
  have hinj : Function.Injective String.data := fun a b h => String.ext h
  exact List.map_injective_iff.2 hinj hdata

theorem strStartsWith_iff {s pat : String} :
    strStartsWith s pat = true ↔ ∃ r : String, s = pat ++ r := by
  rw [strStartsWith, List.isPrefixOf_iff_prefix]
  constructor
  · rintro ⟨t, ht⟩
    refine ⟨⟨t⟩, String.ext ?_⟩
    rw [String.data_append]
    exact ht.symm
  · rintro ⟨r, rfl⟩
    exact ⟨r.data, (String.data_append pat r).symm⟩

theorem splitSlash_append (a b : String) :
    splitSlash (a ++ "/" ++ b) = splitSlash a ++ splitSlash b := by
  have hdata : (a ++ "/" ++ b).data = a.data ++ '/' :: b.data := by
    rw [String.data_append, String.data_append, slash_data]
    simp
  have h1 : (splitSlash (a ++ "/" ++ b)).map String.data
      = (splitSlash a ++ splitSlash b).map String.data := by
    rw [splitSlash_data, hdata, splitChars_append_sep, List.map_append,
      splitSlash_data, splitSlash_data]
  have hinj : Function.Injective String.data := fun x y h => String.ext h
  exact List.map_injective_iff.2 hinj h1

theorem empty_append (s : String) : "" ++ s = s := by
  apply String.ext
  rw [String.data_append]
  rfl

theorem joinSlash_cons {l : List String} (x : String) (h : l ≠ []) :
    joinSlash (x :: l) = x ++ "/" ++ joinSlash l := by
  cases l with
  | nil => exact absurd rfl h
  | cons y ys => rfl

theorem joinSlash_one (x : String) : joinSlash [x] = x := rfl

/-! ### Lemmas about the cumulative paths of `ensure_group_exists` -/

theorem cumFrom_length_lt :
    ∀ (parts : List String) (c : String), ∀ q ∈ cumFrom c false parts,
      c.data.length < q.data.length := by
  intro parts
  induction parts with
  | nil => intro c q hq; simp [cumFrom] at hq
  | cons part rest ih =>
    intro c q hq
    have hlen : c.data.length < (c ++ "/" ++ part).data.length := by
      rw [String.data_append, String.data_append, slash_data]
      simp
    simp only [cumFrom, if_neg (by simp : ¬False)] at hq
    rcases List.mem_cons.1 hq with rfl | hq
    · simp
    · have h1 := ih _ q (by simpa using hq)
      have h2 : ((if false = true then c else c ++ "/") ++ part).data.length
          = (c ++ "/" ++ part).data.length := by simp
      omega

theorem cumFrom_false_eq :
    ∀ (parts : List String) (c : String),
      cumFrom c false parts = (List.range parts.length).map
        (fun k => c ++ "/" ++ joinSlash (parts.take (k + 1))) := by
  intro parts
  induction parts with
  | nil => intro c; rfl
  | cons part rest ih =>
    intro c
    show (c ++ "/" ++ part) :: cumFrom (c ++ "/" ++ part) false rest = _
    rw [ih (c ++ "/" ++ part)]
    simp only [List.length_cons]
    rw [List.range_succ_eq_map, List.map_cons, List.map_map]
    congr 1
    apply List.map_congr_left
    intro k hk
    have hk' : k < rest.length := List.mem_range.1 hk
    have htake : (part :: rest).take (k + 1 + 1) = part :: rest.take (k + 1) := rfl
    simp only [Function.comp]
    rw [htake, joinSlash_cons part (by
      intro hnil
      have := List.length_take (k + 1) rest
      rw [hnil] at this
      simp at this
      omega)]
    apply String.ext
    simp [String.data_append]

theorem cumPaths_eq (p : String) :
    cumPaths p = (List.range (splitSlash p).length).map
      (fun k => joinSlash ((splitSlash p).take (k + 1))) := by
  rw [cumPaths]
  rcases h : splitSlash p with _ | ⟨part, rest⟩
  · exact absurd h (splitSlash_ne_nil p)
  · show ((if true = true then "" else "" ++ "/") ++ part) :: cumFrom _ false rest = _
    rw [if_pos rfl, empty_append, cumFrom_false_eq]
    simp only [List.length_cons]
    rw [List.range_succ_eq_map, List.map_cons, List.map_map]
    congr 1
    apply List.map_congr_left
    intro k hk
    have hk' : k < rest.length := List.mem_range.1 hk
    have htake : (part :: rest).take (k + 1 + 1) = part :: rest.take (k + 1) := rfl
    simp only [Function.comp]
    rw [htake, joinSlash_cons part (by
      intro hnil
      have := List.length_take (k + 1) rest
      rw [hnil] at this
      simp at this
      omega)]

theorem self_mem_cumPaths (p : String) : p ∈ cumPaths p := by
  rw [cumPaths_eq]
  have hlen : 0 < (splitSlash p).length := List.length_pos.2 (splitSlash_ne_nil p)
  refine List.mem_map.2 ⟨(splitSlash p).length - 1, List.mem_range.2 (by omega), ?_⟩
  have : (splitSlash p).length - 1 + 1 = (splitSlash p).length := by omega
  rw [this, List.take_length, joinSlash_splitSlash]

theorem mem_slashAncestors_of_startsWith {p q : String}
    (h : strStartsWith q (p ++ "/") = true) : p ∈ slashAncestors q := by
  rcases strStartsWith_iff.1 h with ⟨r, rfl⟩
  have hsplit : splitSlash (p ++ "/" ++ r) = splitSlash p ++ splitSlash r :=
    splitSlash_append p r
  have hp : 0 < (splitSlash p).length := List.length_pos.2 (splitSlash_ne_nil p)
  have hr : 0 < (splitSlash r).length := List.length_pos.2 (splitSlash_ne_nil r)
  rw [slashAncestors, hsplit]
  refine List.mem_map.2 ⟨(splitSlash p).length - 1, List.mem_range.2 ?_, ?_⟩
  · rw [List.length_append]
    omega
  · have h1 : (splitSlash p).length - 1 + 1 = (splitSlash p).length := by omega
    rw [h1, List.take_left, joinSlash_splitSlash]

theorem slashAncestors_subset_cumPaths {p q : String} (hq : q ∈ cumPaths p) :
    ∀ r ∈ slashAncestors q, r ∈ cumPaths p := by
  rw [cumPaths_eq] at hq ⊢
  rcases List.mem_map.1 hq with ⟨k, hk, rfl⟩
  have hk' : k < (splitSlash p).length := List.mem_range.1 hk
  intro r hr
  have htne : (splitSlash p).take (k + 1) ≠ [] := by
    intro hnil
    have := List.length_take (k + 1) (splitSlash p)
    rw [hnil] at this
    simp at this
    omega
  have hsplit : splitSlash (joinSlash ((splitSlash p).take (k + 1)))
      = (splitSlash p).take (k + 1) :=
    splitSlash_joinSlash htne
      (fun x hx => mem_splitSlash_no_slash (List.mem_of_mem_take hx))
  rw [slashAncestors, hsplit] at hr
  rcases List.mem_map.1 hr with ⟨j, hj, rfl⟩
  have hj' : j < ((splitSlash p).take (k + 1)).length - 1 := List.mem_range.1 hj
  have hjlen : j + 1 ≤ k := by
    have := List.length_take (k + 1) (splitSlash p)
    omega
  refine List.mem_map.2 ⟨j, List.mem_range.2 (by omega), ?_⟩
  rw [List.take_take]
  congr 2
  omega

/-! ### The effect of `ensure_group_exists` on the mapping and order -/

theorem ensureParts_spec :
    ∀ (parts : List String) (cur : String) (fs : Bool) (t : GroupTree),
      (ensureParts parts cur fs t).insertion_order
          = t.insertion_order ++ (cumFrom cur fs parts).filter
              (fun q => !(containsKey t.groups_by_path q))
      ∧ (∀ q, containsKey (ensureParts parts cur fs t).groups_by_path q = true ↔
          (containsKey t.groups_by_path q = true ∨ q ∈ cumFrom cur fs parts))
      ∧ (∀ q, containsKey t.groups_by_path q = true →
          lookupA (ensureParts parts cur fs t).groups_by_path q = lookupA t.groups_by_path q)
      ∧ (∀ q ∈ (cumFrom cur fs parts).filter (fun q => !(containsKey t.groups_by_path q)),
          ∃ nm, lookupA (ensureParts parts cur fs t).groups_by_path q = some (Group.new nm q))
      ∧ (ensureParts parts cur fs t).roots = t.roots := by
  intro parts
  induction parts with
  | nil =>
    intro cur fs t
    refine ⟨by simp [ensureParts, cumFrom], ?_, fun q _ => rfl, ?_, rfl⟩
    · intro q; simp [ensureParts, cumFrom]
    · intro q hq; simp [cumFrom] at hq
  | cons part rest ih =>
    intro cur fs t
    set cur' := (if fs then cur else cur ++ "/") ++ part with hcur'
    have hunfold : ensureParts (part :: rest) cur fs t = ensureParts rest cur' false
        (if containsKey t.groups_by_path cur' then t
         else { t with
             groups_by_path := insertA t.groups_by_path cur' (Group.new part cur'),
             insertion_order := t.insertion_order ++ [cur'] }) := rfl
    have hcum : cumFrom cur fs (part :: rest) = cur' :: cumFrom cur' false rest := rfl
    by_cases hc : containsKey t.groups_by_path cur' = true
    · rw [hunfold, if_pos hc]
      rcases ih cur' false t with ⟨ih1, ih2, ih3, ih4, ih5⟩
      refine ⟨?_, ?_, ih3, ?_, ih5⟩
      · rw [ih1, hcum]
        congr 1
        rw [List.filter_cons]
        simp [hc]
      · intro q
        rw [ih2 q, hcum, List.mem_cons]
        constructor
        · rintro (h | h)
          · exact Or.inl h
          · exact Or.inr (Or.inr h)
        · rintro (h | rfl | h)
          · exact Or.inl h
          · exact Or.inl hc
          · exact Or.inr h
      · intro q hq
        apply ih4
        rw [hcum, List.filter_cons] at hq
        simpa [hc] using hq
    · have hcf : containsKey t.groups_by_path cur' = false := by
        rw [Bool.not_eq_true] at hc; exact hc
      rw [hunfold, if_neg (by rw [hcf]; simp)]
      set t' : GroupTree := { t with
          groups_by_path := insertA t.groups_by_path cur' (Group.new part cur'),
          insertion_order := t.insertion_order ++ [cur'] } with ht'
      rcases ih cur' false t' with ⟨ih1, ih2, ih3, ih4, ih5⟩
      have hck : ∀ q, containsKey t'.groups_by_path q = true ↔
          (containsKey t.groups_by_path q = true ∨ q = cur') := fun q => containsKey_insertA
      have hckne : ∀ q, q ≠ cur' →
          containsKey t'.groups_by_path q = containsKey t.groups_by_path q := by
        intro q hne
        rw [Bool.eq_iff_iff, hck q]
        constructor
        · rintro (h | rfl)
          · exact h
          · exact absurd rfl hne
        · exact Or.inl
      have hrestne : ∀ q ∈ cumFrom cur' false rest, q ≠ cur' := by
        intro q hq heq
        have := cumFrom_length_lt rest cur' q hq
        rw [heq] at this
        omega
      refine ⟨?_, ?_, ?_, ?_, ih5⟩
      · rw [ih1]
        have hfil : (cumFrom cur' false rest).filter
            (fun q => !(containsKey t'.groups_by_path q))
            = (cumFrom cur' false rest).filter
              (fun q => !(containsKey t.groups_by_path q)) := by
          apply List.filter_congr
          intro q hq
          rw [hckne q (hrestne q hq)]
        rw [hfil, hcum, List.filter_cons]
        simp only [hcf, Bool.not_false, if_true]
        show t.insertion_order ++ [cur'] ++ _ = t.insertion_order ++ cur' :: _
        rw [List.append_assoc]
        rfl
      · intro q
        rw [ih2 q, hck q, hcum, List.mem_cons]
        tauto
      · intro q hq
        have hne : q ≠ cur' := by
          intro heq
          rw [heq, hcf] at hq
          cases hq
        rw [ih3 q (by rw [hckne q hne]; exact hq), lookupA_insertA_ne hne]
      · intro q hq
        rw [hcum, List.filter_cons] at hq
        simp only [hcf, Bool.not_false, if_true] at hq
        rcases List.mem_cons.1 hq with rfl | hq
        · refine ⟨part, ?_⟩
          rw [ih3 cur' ((hck cur').2 (Or.inr rfl))]
          exact lookupA_insertA_self
        · have hne := hrestne q (List.mem_filter.1 hq).1
          have hq' : q ∈ (cumFrom cur' false rest).filter
              (fun q => !(containsKey t'.groups_by_path q)) := by
            rw [List.mem_filter]
            refine ⟨(List.mem_filter.1 hq).1, ?_⟩
            rw [hckne q hne]
            exact (List.mem_filter.1 hq).2
          exact ih4 q hq'

/-! ### More path and map helpers -/

theorem str_append_assoc (a b c : String) : a ++ b ++ c = a ++ (b ++ c) := by
  apply String.ext
  simp [String.data_append]

theorem joinSlash_append :
    ∀ l₁ l₂ : List String, l₁ ≠ [] → l₂ ≠ [] →
      joinSlash (l₁ ++ l₂) = joinSlash l₁ ++ "/" ++ joinSlash l₂ := by
  intro l₁
  induction l₁ with
  | nil => intro l₂ h _; exact absurd rfl h
  | cons x l₁ ih =>
    intro l₂ _ h₂
    cases l₁ with
    | nil =>
      show joinSlash (x :: l₂) = joinSlash [x] ++ "/" ++ joinSlash l₂
      rw [joinSlash_cons x h₂, joinSlash_one]
    | cons y l₁' =>
      show joinSlash (x :: (y :: l₁' ++ l₂)) = joinSlash (x :: y :: l₁') ++ "/" ++ joinSlash l₂
      rw [joinSlash_cons x (by simp), joinSlash_cons x (by simp),
        ih l₂ (by simp) h₂, str_append_assoc (x ++ "/") _ _, str_append_assoc (x ++ "/") _ _]

theorem startsWith_of_mem_slashAncestors {r q : String} (h : r ∈ slashAncestors q) :
    strStartsWith q (r ++ "/") = true := by
  rw [slashAncestors] at h
  rcases List.mem_map.1 h with ⟨j, hj, rfl⟩
  have hj' : j < (splitSlash q).length - 1 := List.mem_range.1 hj
  have hlen : 0 < (splitSlash q).length := List.length_pos.2 (splitSlash_ne_nil q)
  have htake : (splitSlash q).take (j + 1) ≠ [] := by
    intro hnil
    have := List.length_take (j + 1) (splitSlash q)
    rw [hnil] at this
    simp at this
    omega
  have hdrop : (splitSlash q).drop (j + 1) ≠ [] := by
    intro hnil
    have := List.length_drop (j + 1) (splitSlash q)
    rw [hnil] at this
    simp at this
    omega
  have hsplit : q = joinSlash ((splitSlash q).take (j + 1))
      ++ "/" ++ joinSlash ((splitSlash q).drop (j + 1)) := by
    conv_lhs => rw [← joinSlash_splitSlash q, ← List.take_append_drop (j + 1) (splitSlash q)]
    exact joinSlash_append _ _ htake hdrop
  rw [strStartsWith_iff]
  exact ⟨joinSlash ((splitSlash q).drop (j + 1)), by
    rw [str_append_assoc] at hsplit ⊢
    exact hsplit⟩

theorem cumFrom_pairwise :
    ∀ (parts : List String) (c : String) (fs : Bool),
      (cumFrom c fs parts).Pairwise (fun a b => a.data.length < b.data.length) := by
  intro parts
  induction parts with
  | nil => intro c fs; simp [cumFrom]
  | cons part rest ih =>
    intro c fs
    show List.Pairwise _ (((if fs then c else c ++ "/") ++ part) :: cumFrom _ false rest)
    refine List.pairwise_cons.2 ⟨?_, ih _ false⟩
    intro q hq
    exact cumFrom_length_lt rest _ q hq

theorem cumPaths_nodup (p : String) : (cumPaths p).Nodup := by
  have h := cumFrom_pairwise (splitSlash p) "" true
  exact List.Pairwise.imp (fun hlt heq => by subst heq; omega) h

theorem keysOf_filter (m : List (String × Group)) (pr : String → Bool) :
    keysOf (m.filter fun kv => pr kv.fst) = (keysOf m).filter pr := by
  induction m with
  | nil => rfl
  | cons kv m ih =>
    by_cases h : pr kv.fst = true
    · simp [keysOf, List.filter_cons, h] at ih ⊢
      exact ih
    · rw [Bool.not_eq_true] at h
      simp [keysOf, List.filter_cons, h] at ih ⊢
      exact ih

theorem lookupA_filter_not_pred (pr : String → Bool) {q : String} (h : pr q = false) :
    ∀ m : List (String × Group),
      lookupA (m.filter fun kv => !(pr kv.fst)) q = lookupA m q := by
  intro m
  induction m with
  | nil => rfl
  | cons kv m ih =>
    by_cases hq : (kv.fst == q) = true
    · have hk : pr kv.fst = false := by rw [beq_iff_eq.1 hq]; exact h
      rw [List.filter_cons, if_pos (by rw [hk]; rfl)]
      rw [lookupA, lookupA, List.find?_cons, List.find?_cons, hq]
    · rw [List.filter_cons]
      split
      · rw [lookupA, lookupA, List.find?_cons, List.find?_cons,
          (by simpa using hq : (kv.fst == q) = false)]
        exact ih
      · have hskip : lookupA (kv :: m) q = lookupA m q := by
          rw [lookupA, lookupA, List.find?_cons, (by simpa using hq : (kv.fst == q) = false)]
        rw [hskip]
        exact ih

theorem contains_filter_keys {m : List (String × Group)} {pr : String → Bool} {x : String}
    (hx : x ∈ keysOf m) :
    (((keysOf m).filter pr).contains x) = pr x := by
  rw [Bool.eq_iff_iff]
  rw [List.elem_iff, List.mem_filter]
  constructor
  · rintro ⟨_, h⟩; exact h
  · intro h; exact ⟨hx, h⟩

/-- `rebuild_tree` never changes the mapping or the insertion order. -/
theorem rebuild_tree_mapping (t : GroupTree) :
    (t.rebuild_tree).groups_by_path = t.groups_by_path ∧
    (t.rebuild_tree).insertion_order = t.insertion_order := ⟨rfl, rfl⟩

theorem ensure_of_contains {t : GroupTree} {p : String}
    (h : containsKey t.groups_by_path p = true) : t.ensure_group_exists p = t := by
  rw [GroupTree.ensure_group_exists, if_pos h]

theorem ensure_of_not_contains {t : GroupTree} {p : String}
    (h : containsKey t.groups_by_path p = false) :
    (t.ensure_group_exists p).insertion_order
        = t.insertion_order ++ (cumPaths p).filter
            (fun q => !(containsKey t.groups_by_path q))
    ∧ (∀ q, containsKey (t.ensure_group_exists p).groups_by_path q = true ↔
        (containsKey t.groups_by_path q = true ∨ q ∈ cumPaths p))
    ∧ (∀ q, containsKey t.groups_by_path q = true →
        lookupA (t.ensure_group_exists p).groups_by_path q = lookupA t.groups_by_path q)
    ∧ (∀ q ∈ (cumPaths p).filter (fun q => !(containsKey t.groups_by_path q)),
        ∃ nm, lookupA (t.ensure_group_exists p).groups_by_path q = some (Group.new nm q))
    ∧ (t.ensure_group_exists p).roots = t.roots := by
  have hne : ¬ containsKey t.groups_by_path p = true := by rw [h]; simp
  rw [GroupTree.ensure_group_exists, if_neg hne]
  exact ensureParts_spec (splitSlash p) "" true t

theorem closed_congr {ks₁ ks₂ : List String} (h : ∀ q, q ∈ ks₁ ↔ q ∈ ks₂)
    (hcl : closedUnderParents ks₁) : closedUnderParents ks₂ := by
  intro p hp q hq
  exact (h q).1 (hcl p ((h p).2 hp) q hq)

theorem closed_ensure {t : GroupTree} (p : String)
    (hcl : closedUnderParents (keysOf t.groups_by_path)) :
    closedUnderParents (keysOf (t.ensure_group_exists p).groups_by_path) := by
  by_cases hc : containsKey t.groups_by_path p = true
  · rw [ensure_of_contains hc]; exact hcl
  · rw [Bool.not_eq_true] at hc
    rcases ensure_of_not_contains hc with ⟨_, h2, _, _, _⟩
    intro x hx r hr
    rw [← containsKey_iff] at hx ⊢
    rcases (h2 x).1 hx with hx' | hx'
    · exact (h2 r).2 (Or.inl (by
        rw [containsKey_iff] at hx' ⊢
        exact hcl x hx' r hr))
    · exact (h2 r).2 (Or.inr (slashAncestors_subset_cumPaths hx' r hr))

/-! ### Claim C5 -/

/-- **C5**.  `delete_group p` removes from the mapping exactly the entries
whose key is `p` or starts with `p ++ "/"`; under the invariant that every
insertion-order entry is a key (true of every tree the API produces), it
removes exactly the same set from the insertion order, keeping the relative
order of the survivors; and every surviving path still maps to the very same
group (so collapsed bits are untouched). -/
theorem c5_theorem (t : GroupTree) (p : String) :
    (t.delete_group p).groups_by_path
        = t.groups_by_path.filter
            (fun kv => !(kv.fst == p || strStartsWith kv.fst (p ++ "/")))
    ∧ ((∀ q ∈ t.insertion_order, containsKey t.groups_by_path q = true) →
        (t.delete_group p).insertion_order
          = t.insertion_order.filter (fun q => !(q == p || strStartsWith q (p ++ "/"))))
    ∧ (∀ q, (q == p || strStartsWith q (p ++ "/")) = false →
        lookupA (t.delete_group p).groups_by_path q = lookupA t.groups_by_path q) := by
  have hma : (t.delete_group p).groups_by_path
      = t.groups_by_path.filter
          (fun kv => !(kv.fst == p || strStartsWith kv.fst (p ++ "/"))) := by
    show t.groups_by_path.filter _ = _
    apply List.filter_congr
    intro kv hkv
    have hmem : kv.fst ∈ keysOf t.groups_by_path := List.mem_map_of_mem Prod.fst hkv
    rw [contains_filter_keys hmem]
  refine ⟨hma, ?_, ?_⟩
  · intro hord
    show t.insertion_order.filter _ = _
    apply List.filter_congr
    intro q hq
    have hmem : q ∈ keysOf t.groups_by_path := containsKey_iff.1 (hord q hq)
    rw [contains_filter_keys hmem]
  · intro q hq
    rw [hma]
    exact lookupA_filter_not_pred (fun x => x == p || strStartsWith x (p ++ "/")) hq
      t.groups_by_path

theorem c5_witness :
    (∀ q ∈ c5tree.insertion_order, containsKey c5tree.groups_by_path q = true)
    ∧ (("alpha" == "beta" || strStartsWith "alpha" ("beta" ++ "/")) = false)
    ∧ (c5tree.delete_group "beta").insertion_order
        = c5tree.insertion_order.filter
            (fun q => !(q == "beta" || strStartsWith q ("beta" ++ "/")))
    ∧ lookupA (c5tree.delete_group "beta").groups_by_path "alpha"
        = lookupA c5tree.groups_by_path "alpha" :=
  ⟨by decide, by decide, (c5_theorem c5tree "beta").2.1 (by decide),
    (c5_theorem c5tree "beta").2.2 "alpha" (by decide)⟩

/-! ### Claim C6 -/

theorem filterMap_new_groups (f : String → Option Group) :
    ∀ L : List String, (∀ q ∈ L, ∃ nm, f q = some (Group.new nm q)) →
      (L.filterMap f).map Group.path = L ∧ ∀ g ∈ L.filterMap f, g.collapsed = false := by
  intro L
  induction L with
  | nil => intro; exact ⟨rfl, by simp⟩
  | cons q L ih =>
    intro h
    rcases h q (List.mem_cons_self q L) with ⟨nm, hq⟩
    have ih' := ih (fun x hx => h x (List.mem_cons_of_mem q hx))
    rw [List.filterMap_cons, hq]
    constructor
    · show Group.path (Group.new nm q) :: _ = _
      rw [ih'.1]
      rfl
    · intro g hg
      rcases List.mem_cons.1 hg with rfl | hg
      · rfl
      · exact ih'.2 g hg

/-- **C6**.  `create_group` of an existing path changes neither the mapping
nor the insertion order (and changes nothing at all on a rebuilt tree); for a
new path it appends exactly the cumulative `/`-prefixes of the path that were
missing, in order, to the end of the insertion order — so the created path
and its auto-created ancestors appear at the end of `get_all_groups()`, each
created expanded (`collapsed = false`). -/
theorem c6_theorem (t : GroupTree) (p : String) :
    (containsKey t.groups_by_path p = true →
        (t.create_group p).groups_by_path = t.groups_by_path
        ∧ (t.create_group p).insertion_order = t.insertion_order
        ∧ (t.rebuild_tree = t → t.create_group p = t))
    ∧ (containsKey t.groups_by_path p = false →
        (t.create_group p).insertion_order
          = t.insertion_order
            ++ (cumPaths p).filter (fun q => !(containsKey t.groups_by_path q))
        ∧ p ∈ (cumPaths p).filter (fun q => !(containsKey t.groups_by_path q))
        ∧ ((∀ q ∈ t.insertion_order, containsKey t.groups_by_path q = true) →
            ∃ rest, (t.create_group p).get_all_groups = t.get_all_groups ++ rest
              ∧ rest.map Group.path
                  = (cumPaths p).filter (fun q => !(containsKey t.groups_by_path q))
              ∧ ∀ g ∈ rest, g.collapsed = false)) := by
  constructor
  · intro hc
    rw [GroupTree.create_group, ensure_of_contains hc]
    exact ⟨rfl, rfl, fun hreb => hreb⟩
  · intro hc
    rcases ensure_of_not_contains hc with ⟨h1, _, h3, h4, _⟩
    refine ⟨h1, ?_, ?_⟩
    · rw [List.mem_filter]
      exact ⟨self_mem_cumPaths p, by rw [hc]; rfl⟩
    · intro hord
      refine ⟨((cumPaths p).filter
          (fun q => !(containsKey t.groups_by_path q))).filterMap
            (lookupA (t.ensure_group_exists p).groups_by_path), ?_, ?_, ?_⟩
      · show (t.ensure_group_exists p).get_all_groups = _
        rw [GroupTree.get_all_groups, h1, List.filterMap_append]
        congr 1
        apply List.filterMap_congr
        intro q hq
        exact h3 q (hord q hq)
      · exact (filterMap_new_groups _ _ h4).1
      · exact (filterMap_new_groups _ _ h4).2

theorem c6_witness :
    containsKey c5tree.groups_by_path "beta" = true
    ∧ (c5tree.create_group "beta").groups_by_path = c5tree.groups_by_path
    ∧ containsKey c5tree.groups_by_path "beta/kid/x" = false
    ∧ (∀ q ∈ c5tree.insertion_order, containsKey c5tree.groups_by_path q = true)
    ∧ (c5tree.create_group "beta/kid/x").insertion_order
        = c5tree.insertion_order
          ++ (cumPaths "beta/kid/x").filter
              (fun q => !(containsKey c5tree.groups_by_path q))
    ∧ ∃ rest, (c5tree.create_group "beta/kid/x").get_all_groups
          = c5tree.get_all_groups ++ rest
        ∧ rest.map Group.path
            = (cumPaths "beta/kid/x").filter
                (fun q => !(containsKey c5tree.groups_by_path q))
        ∧ ∀ g ∈ rest, g.collapsed = false :=
  ⟨by decide, ((c6_theorem c5tree "beta").1 (by decide)).1, by decide, by decide,
    ((c6_theorem c5tree "beta/kid/x").2 (by decide)).1,
    ((c6_theorem c5tree "beta/kid/x").2 (by decide)).2.2 (by decide)⟩

/-! ### Claim C9 -/

/-- **C9** (counterexample to the claim as stated).  In `orphanTree` the path
`"a"` is not a key, yet `delete_group "a"` removes the key `"a/b"`: deletion
of an absent path is not a no-op when orphaned descendants exist. -/
theorem c9_counterexample :
    containsKey orphanTree.groups_by_path "a" = false
    ∧ containsKey orphanTree.groups_by_path "a/b" = true
    ∧ containsKey (orphanTree.delete_group "a").groups_by_path "a/b" = false := by
  refine ⟨by decide, by decide, by decide⟩

/-- **C9** (amended).  For a path `p` not in the mapping, `toggle_collapsed p`
leaves the tree entirely unchanged, unconditionally; `delete_group p` leaves
it entirely unchanged provided the tree's keys are closed under parents and
its `roots` are rebuilt — both invariants hold for every tree the API builds
from prefix-closed input groups. -/
theorem c9_theorem (t : GroupTree) (p : String)
    (h : containsKey t.groups_by_path p = false) :
    t.toggle_collapsed p = t
    ∧ (closedUnderParents (keysOf t.groups_by_path) → t.rebuild_tree = t →
        t.delete_group p = t) := by
  constructor
  · rw [GroupTree.toggle_collapsed, lookupA_eq_none h]
  · intro hcl hreb
    have hto : (keysOf t.groups_by_path).filter
        (fun q => q == p || strStartsWith q (p ++ "/")) = [] := by
      rw [List.filter_eq_nil_iff]
      intro q hq hpred
      rcases Bool.or_eq_true_iff.1 hpred with h1 | h1
      · rw [beq_iff_eq.1 h1] at hq
        exact absurd (containsKey_iff.2 hq) (by rw [h]; simp)
      · have hanc := mem_slashAncestors_of_startsWith h1
        have hp : p ∈ keysOf t.groups_by_path := hcl q hq p hanc
        exact absurd (containsKey_iff.2 hp) (by rw [h]; simp)
    have hm : (t.groups_by_path.filter fun kv =>
        !(((keysOf t.groups_by_path).filter
            fun q => q == p || strStartsWith q (p ++ "/")).contains kv.fst))
        = t.groups_by_path := by
      rw [hto]
      exact List.filter_eq_self.2 fun kv _ => rfl
    have ho : (t.insertion_order.filter fun q =>
        !(((keysOf t.groups_by_path).filter
            fun q => q == p || strStartsWith q (p ++ "/")).contains q))
        = t.insertion_order := by
      rw [hto]
      exact List.filter_eq_self.2 fun q _ => rfl
    show GroupTree.rebuild_tree
        { t with groups_by_path := _, insertion_order := _ } = t
    rw [hm, ho]
    exact hreb

theorem c9_witness :
    containsKey c9tree.groups_by_path "x" = false
    ∧ closedUnderParents (keysOf c9tree.groups_by_path)
    ∧ c9tree.rebuild_tree = c9tree
    ∧ c9tree.toggle_collapsed "x" = c9tree
    ∧ c9tree.delete_group "x" = c9tree :=
  ⟨by decide, by decide, rfl, (c9_theorem c9tree "x" (by decide)).1,
    (c9_theorem c9tree "x" (by decide)).2 (by decide) rfl⟩

/-! ### Claim C2 -/

theorem foldRegister_spec :
    ∀ (gs : List Group) (t : GroupTree),
      (gs.foldl registerGroup t).insertion_order = t.insertion_order ++ gs.map Group.path
      ∧ (∀ q, containsKey (gs.foldl registerGroup t).groups_by_path q = true ↔
          (containsKey t.groups_by_path q = true ∨ q ∈ gs.map Group.path))
      ∧ (gs.foldl registerGroup t).roots = t.roots := by
  intro gs
  induction gs with
  | nil => intro t; exact ⟨by simp, by simp, rfl⟩
  | cons g gs ih =>
    intro t
    rcases ih (registerGroup t g) with ⟨ih1, ih2, ih3⟩
    refine ⟨?_, ?_, ih3⟩
    · show (gs.foldl registerGroup (registerGroup t g)).insertion_order = _
      rw [ih1]
      show (t.insertion_order ++ [g.path]) ++ _ = _
      rw [List.append_assoc]
      rfl
    · intro q
      show containsKey (gs.foldl registerGroup (registerGroup t g)).groups_by_path q
          = true ↔ _
      rw [ih2 q]
      have : containsKey (registerGroup t g).groups_by_path q = true ↔
          (containsKey t.groups_by_path q = true ∨ q = g.path) := containsKey_insertA
      rw [this, List.map_cons, List.mem_cons]
      tauto

theorem contains_of_lookup_some {m : List (String × Group)} {k : String} {v : Group}
    (h : lookupA m k = some v) : containsKey m k = true := by
  by_contra hc
  rw [Bool.not_eq_true] at hc
  rw [lookupA_eq_none hc] at h
  cases h

theorem closed_toggle (t : GroupTree) (p : String)
    (hcl : closedUnderParents (keysOf t.groups_by_path)) :
    closedUnderParents (keysOf (t.toggle_collapsed p).groups_by_path) := by
  rw [GroupTree.toggle_collapsed]
  rcases h : lookupA t.groups_by_path p with _ | g
  · exact hcl
  · have hc : containsKey t.groups_by_path p = true := contains_of_lookup_some h
    show closedUnderParents (keysOf (insertA t.groups_by_path p _))
    rw [keysOf_insertA, if_pos hc]
    exact hcl

theorem closed_delete (t : GroupTree) (p : String)
    (hcl : closedUnderParents (keysOf t.groups_by_path)) :
    closedUnderParents (keysOf (t.delete_group p).groups_by_path) := by
  rw [(c5_theorem t p).1,
    keysOf_filter t.groups_by_path (fun x => !(x == p || strStartsWith x (p ++ "/")))]
  intro x hx r hr
  rcases List.mem_filter.1 hx with ⟨hxk, hxp⟩
  simp only [Bool.not_eq_true', Bool.or_eq_false_iff, beq_eq_false_iff_ne] at hxp
  rw [List.mem_filter]
  refine ⟨hcl x hxk r hr, ?_⟩
  simp only [Bool.not_eq_true', Bool.or_eq_false_iff, beq_eq_false_iff_ne]
  constructor
  · intro hrp
    have hsw : strStartsWith x (p ++ "/") = true := by
      rw [← hrp]
      exact startsWith_of_mem_slashAncestors hr
    have hcontra := hxp.2
    rw [hsw] at hcontra
    simp at hcontra
  · by_contra hb
    rw [Bool.not_eq_false] at hb
    rcases strStartsWith_iff.1 hb with ⟨u, hu⟩
    rcases strStartsWith_iff.1 (startsWith_of_mem_slashAncestors hr) with ⟨w, hw⟩
    have hx3 : strStartsWith x (p ++ "/") = true := by
      rw [strStartsWith_iff]
      refine ⟨u ++ ("/" ++ w), ?_⟩
      rw [hw, hu]
      apply String.ext
      simp [String.data_append]
    have hcontra := hxp.2
    rw [hx3] at hcontra
    simp at hcontra

theorem closed_create (t : GroupTree) (p : String)
    (hcl : closedUnderParents (keysOf t.groups_by_path)) :
    closedUnderParents (keysOf (t.create_group p).groups_by_path) :=
  closed_ensure p hcl

theorem closed_foldEnsure :
    ∀ (insts : List Instance) (t : GroupTree),
      closedUnderParents (keysOf t.groups_by_path) →
      closedUnderParents (keysOf (insts.foldl ensureInstance t).groups_by_path) := by
  intro insts
  induction insts with
  | nil => intro t h; exact h
  | cons i insts ih =>
    intro t h
    refine ih (ensureInstance t i) ?_
    rw [ensureInstance]
    split
    · exact h
    · exact closed_ensure i.group_path h

/-- **C2** (counterexample to the claim as stated).  `new_with_groups`
registers existing groups verbatim and never creates their missing ancestors,
so a group list containing `"a/b"` but not `"a"` yields a mapping violating
the prefix-closure. -/
theorem c2_counterexample :
    containsKey orphanTree.groups_by_path "a/b" = true
    ∧ "a" ∈ slashAncestors "a/b"
    ∧ containsKey orphanTree.groups_by_path "a" = false
    ∧ ¬ closedUnderParents (keysOf orphanTree.groups_by_path) := by
  refine ⟨by decide, by decide, by decide, by decide⟩

/-- **C2** (amended).  Provided the existing groups' paths are themselves
closed under `/`-boundary prefixes (as they are whenever they come from a
previous save of a closed tree), the mapping built by `new_with_groups` is
closed under parents; and closure is preserved unconditionally by
`create_group`, `delete_group` and `toggle_collapsed`. -/
theorem c2_theorem (insts : List Instance) (gs : List Group) (t : GroupTree) (p : String)
    (hgs : closedUnderParents (gs.map Group.path))
    (hcl : closedUnderParents (keysOf t.groups_by_path)) :
    closedUnderParents (keysOf (GroupTree.new_with_groups insts gs).groups_by_path)
    ∧ closedUnderParents (keysOf (t.create_group p).groups_by_path)
    ∧ closedUnderParents (keysOf (t.delete_group p).groups_by_path)
    ∧ closedUnderParents (keysOf (t.toggle_collapsed p).groups_by_path) := by
  refine ⟨?_, closed_create t p hcl, closed_delete t p hcl, closed_toggle t p hcl⟩
  show closedUnderParents (keysOf
    ((insts.foldl ensureInstance (gs.foldl registerGroup ⟨[], [], []⟩)).rebuild_tree).groups_by_path)
  rw [(rebuild_tree_mapping _).1]
  refine closed_foldEnsure insts _ ?_
  refine closed_congr (fun q => ?_) hgs
  rw [← containsKey_iff]
  rcases foldRegister_spec gs ⟨[], [], []⟩ with ⟨_, h2, _⟩
  rw [h2 q]
  constructor
  · exact Or.inr
  · rintro (h | h)
    · cases h
    · exact h

theorem c2_witness :
    closedUnderParents ([Group.new "a" "a", Group.mk "b" "a/b" false []].map Group.path)
    ∧ closedUnderParents (keysOf c5tree.groups_by_path)
    ∧ closedUnderParents (keysOf (GroupTree.new_with_groups c4insts
        [Group.new "a" "a", Group.mk "b" "a/b" false []]).groups_by_path)
    ∧ closedUnderParents (keysOf (c5tree.create_group "beta/kid/x").groups_by_path)
    ∧ closedUnderParents (keysOf (c5tree.delete_group "beta").groups_by_path)
    ∧ closedUnderParents (keysOf (c5tree.toggle_collapsed "alpha").groups_by_path) :=
  ⟨by decide, by decide,
    (c2_theorem c4insts [Group.new "a" "a", Group.mk "b" "a/b" false []] c5tree
      "beta/kid/x" (by decide) (by decide)).1,
    (c2_theorem c4insts [Group.new "a" "a", Group.mk "b" "a/b" false []] c5tree
      "beta/kid/x" (by decide) (by decide)).2.1,
    (c2_theorem c4insts [Group.new "a" "a", Group.mk "b" "a/b" false []] c5tree
      "beta" (by decide) (by decide)).2.2.1,
    (c2_theorem c4insts [Group.new "a" "a", Group.mk "b" "a/b" false []] c5tree
      "alpha" (by decide) (by decide)).2.2.2⟩

/-! ### Claim C3 -/

theorem foldRegister_lookup_notmem :
    ∀ (gs : List Group) (t : GroupTree) (q : String), q ∉ gs.map Group.path →
      lookupA (gs.foldl registerGroup t).groups_by_path q = lookupA t.groups_by_path q := by
  intro gs
  induction gs with
  | nil => intro t q _; rfl
  | cons g gs ih =>
    intro t q hq
    have hq1 : q ≠ g.path := fun h =>
      hq (by rw [List.map_cons]; exact List.mem_cons.2 (Or.inl h))
    have hq2 : q ∉ gs.map Group.path := fun h =>
      hq (by rw [List.map_cons]; exact List.mem_cons_of_mem _ h)
    show lookupA (gs.foldl registerGroup (registerGroup t g)).groups_by_path q = _
    rw [ih (registerGroup t g) q hq2]
    exact lookupA_insertA_ne hq1

theorem foldRegister_lookup_mem :
    ∀ (gs : List Group) (t : GroupTree), (gs.map Group.path).Nodup →
      ∀ g ∈ gs, lookupA (gs.foldl registerGroup t).groups_by_path g.path = some g := by
  intro gs
  induction gs with
  | nil => intro t _ g hg; cases hg
  | cons g0 gs ih =>
    intro t hnd g hg
    rw [List.map_cons, List.nodup_cons] at hnd
    rcases List.mem_cons.1 hg with rfl | hg
    · show lookupA (gs.foldl registerGroup (registerGroup t g)).groups_by_path g.path
          = some g
      rw [foldRegister_lookup_notmem gs _ g.path hnd.1]
      exact lookupA_insertA_self
    · exact ih (registerGroup t g0) hnd.2 g hg

theorem foldEnsure_spec :
    ∀ (insts : List Instance) (t : GroupTree),
      ∃ newPaths : List String,
        (insts.foldl ensureInstance t).insertion_order = t.insertion_order ++ newPaths
        ∧ newPaths.Nodup
        ∧ (∀ q ∈ newPaths, containsKey t.groups_by_path q = false
            ∧ (∃ i ∈ insts, i.group_path ≠ "" ∧ q ∈ cumPaths i.group_path)
            ∧ ∃ nm, lookupA (insts.foldl ensureInstance t).groups_by_path q
                = some (Group.new nm q))
        ∧ (∀ q, containsKey t.groups_by_path q = true →
            lookupA (insts.foldl ensureInstance t).groups_by_path q
              = lookupA t.groups_by_path q)
        ∧ (∀ q, containsKey (insts.foldl ensureInstance t).groups_by_path q = true ↔
            (containsKey t.groups_by_path q = true ∨ q ∈ newPaths))
        ∧ (insts.foldl ensureInstance t).roots = t.roots := by
  intro insts
  induction insts with
  | nil =>
    intro t
    exact ⟨[], by simp, List.nodup_nil, by simp, fun q _ => rfl, by simp, rfl⟩
  | cons i insts ih =>
    intro t
    rw [List.foldl_cons]
    by_cases hgp : (i.group_path == "") = true
    · have he : ensureInstance t i = t := by rw [ensureInstance, if_pos hgp]
      rw [he]
      rcases ih t with ⟨np, h1, h2, h3, h4, h5, h6⟩
      refine ⟨np, h1, h2, ?_, h4, h5, h6⟩
      intro q hq
      rcases h3 q hq with ⟨ha, ⟨j, hj, hj1, hj2⟩, hb⟩
      exact ⟨ha, ⟨j, List.mem_cons_of_mem i hj, hj1, hj2⟩, hb⟩
    · have hgp' : i.group_path ≠ "" := by simpa using hgp
      have he : ensureInstance t i = t.ensure_group_exists i.group_path := by
        rw [ensureInstance, if_neg hgp]
      rw [he]
      by_cases hc : containsKey t.groups_by_path i.group_path = true
      · rw [ensure_of_contains hc]
        rcases ih t with ⟨np, h1, h2, h3, h4, h5, h6⟩
        refine ⟨np, h1, h2, ?_, h4, h5, h6⟩
        intro q hq
        rcases h3 q hq with ⟨ha, ⟨j, hj, hj1, hj2⟩, hb⟩
        exact ⟨ha, ⟨j, List.mem_cons_of_mem i hj, hj1, hj2⟩, hb⟩
      · rw [Bool.not_eq_true] at hc
        rcases ensure_of_not_contains hc with ⟨e1, e2, e3, e4, e5⟩
        rcases ih (t.ensure_group_exists i.group_path) with ⟨np1, h1, h2, h3, h4, h5, h6⟩
        refine ⟨(cumPaths i.group_path).filter
            (fun q => !(containsKey t.groups_by_path q)) ++ np1, ?_, ?_, ?_, ?_, ?_, ?_⟩
        · rw [h1, e1, List.append_assoc]
        · rw [List.nodup_append]
          refine ⟨(cumPaths_nodup _).filter _, h2, ?_⟩
          intro a ha hna
          have ha' : containsKey (t.ensure_group_exists i.group_path).groups_by_path a
              = true := (e2 a).2 (Or.inr (List.mem_filter.1 ha).1)
          have := (h3 a hna).1
          rw [ha'] at this
          cases this
        · intro q hq
          rcases List.mem_append.1 hq with hq | hq
          · have hqc := List.mem_filter.1 hq
            refine ⟨by simpa using hqc.2, ⟨i, List.mem_cons_self _ _, hgp', hqc.1⟩, ?_⟩
            rcases e4 q hq with ⟨nm, hnm⟩
            exact ⟨nm, by rw [h4 q ((e2 q).2 (Or.inr hqc.1)), hnm]⟩
          · rcases h3 q hq with ⟨hc1, ⟨j, hj, hj1, hj2⟩, hl⟩
            refine ⟨?_, ⟨j, List.mem_cons_of_mem i hj, hj1, hj2⟩, hl⟩
            by_contra hb
            rw [Bool.not_eq_false] at hb
            have h2' := (e2 q).2 (Or.inl hb)
            rw [hc1] at h2'
            cases h2'
        · intro q hq
          rw [h4 q ((e2 q).2 (Or.inl hq)), e3 q hq]
        · intro q
          rw [h5 q, e2 q]
          constructor
          · rintro ((h | h) | h)
            · exact Or.inl h
            · by_cases hct : containsKey t.groups_by_path q = true
              · exact Or.inl hct
              · refine Or.inr (List.mem_append_left _ (List.mem_filter.2 ⟨h, ?_⟩))
                rw [Bool.not_eq_true] at hct
                rw [hct]
                rfl
            · exact Or.inr (List.mem_append_right _ h)
          · rintro (h | h)
            · exact Or.inl (Or.inl h)
            · rcases List.mem_append.1 h with h | h
              · exact Or.inl (Or.inr (List.mem_filter.1 h).1)
              · exact Or.inr h
        · rw [h6, e5]

theorem filterMap_map_paths (f : String → Option Group) :
    ∀ gs : List Group, (∀ g ∈ gs, f g.path = some g) →
      ((gs.map Group.path).filterMap f) = gs := by
  intro gs
  induction gs with
  | nil => intro; rfl
  | cons g gs ih =>
    intro h
    rw [List.map_cons, List.filterMap_cons, h g (List.mem_cons_self _ _),
      ih (fun x hx => h x (List.mem_cons_of_mem g hx))]

theorem get_all_rebuild (t : GroupTree) :
    (t.rebuild_tree).get_all_groups = t.get_all_groups := rfl

/-- The main content of C3: with pairwise-distinct paths, `get_all_groups`
of a freshly built tree is the given groups, verbatim and in order, followed
only by auto-created groups for instance group paths; and the resulting path
list is duplicate-free (so the output can serve as the input of the next
load). -/
theorem new_with_groups_get_all (insts : List Instance) (gs : List Group)
    (h : (gs.map Group.path).Nodup) :
    ∃ rest, (GroupTree.new_with_groups insts gs).get_all_groups = gs ++ rest
      ∧ (∀ g ∈ rest, g.collapsed = false ∧ g.path ∉ gs.map Group.path
          ∧ ∃ i ∈ insts, i.group_path ≠ "" ∧ g.path ∈ cumPaths i.group_path)
      ∧ (((GroupTree.new_with_groups insts gs).get_all_groups).map Group.path).Nodup := by
  rcases foldRegister_spec gs ⟨[], [], []⟩ with ⟨r1, r2, _⟩
  rcases foldEnsure_spec insts (gs.foldl registerGroup ⟨[], [], []⟩) with
    ⟨np, f1, f2, f3, f4, f5, _⟩
  have hcontains1 : ∀ g ∈ gs, containsKey
      (gs.foldl registerGroup (⟨[], [], []⟩ : GroupTree)).groups_by_path g.path = true :=
    fun g hg => (r2 g.path).2 (Or.inr (List.mem_map_of_mem Group.path hg))
  have hlook : ∀ g ∈ gs,
      lookupA ((insts.foldl ensureInstance
          (gs.foldl registerGroup ⟨[], [], []⟩)).groups_by_path) g.path = some g := by
    intro g hg
    rw [f4 g.path (hcontains1 g hg)]
    exact foldRegister_lookup_mem gs _ h g hg
  have hget : (GroupTree.new_with_groups insts gs).get_all_groups
      = gs ++ np.filterMap (lookupA ((insts.foldl ensureInstance
          (gs.foldl registerGroup ⟨[], [], []⟩)).groups_by_path)) := by
    show (GroupTree.rebuild_tree _).get_all_groups = _
    rw [get_all_rebuild, GroupTree.get_all_groups, f1, r1]
    rw [show (⟨[], [], []⟩ : GroupTree).insertion_order ++ gs.map Group.path
        = gs.map Group.path from rfl]
    rw [List.filterMap_append]
    congr 1
    exact filterMap_map_paths _ gs hlook
  have hnews := filterMap_new_groups (lookupA ((insts.foldl ensureInstance
      (gs.foldl registerGroup ⟨[], [], []⟩)).groups_by_path)) np
    (fun q hq => (f3 q hq).2.2)
  refine ⟨np.filterMap _, hget, ?_, ?_⟩
  · intro g hg
    have hpath : g.path ∈ np := by
      have := List.mem_map_of_mem Group.path hg
      rw [hnews.1] at this
      exact this
    rcases f3 g.path hpath with ⟨hc1, hex, _⟩
    refine ⟨hnews.2 g hg, ?_, hex⟩
    intro hmem
    have := (r2 g.path).2 (Or.inr hmem)
    rw [hc1] at this
    cases this
  · rw [hget, List.map_append, hnews.1, List.nodup_append]
    refine ⟨h, f2, ?_⟩
    intro a ha hna
    have := (r2 a).2 (Or.inr ha)
    rw [(f3 a hna).1] at this
    cases this

/-- **C3**.  With pairwise-distinct paths, `get_all_groups()` on the freshly
built tree returns the given groups first — verbatim, in order, with their
collapsed bits — followed only by groups auto-created for instance
`group_path`s; and building again from the saved list keeps it as a prefix,
so a load-then-save cycle preserves group order. -/
theorem c3_theorem (insts : List Instance) (gs : List Group)
    (h : (gs.map Group.path).Nodup) :
    (∃ rest, (GroupTree.new_with_groups insts gs).get_all_groups = gs ++ rest
      ∧ (∀ g ∈ rest, g.collapsed = false ∧ g.path ∉ gs.map Group.path
          ∧ ∃ i ∈ insts, i.group_path ≠ "" ∧ g.path ∈ cumPaths i.group_path))
    ∧ (∀ insts2, ∃ rest2,
        (GroupTree.new_with_groups insts2
            ((GroupTree.new_with_groups insts gs).get_all_groups)).get_all_groups
          = (GroupTree.new_with_groups insts gs).get_all_groups ++ rest2) := by
  rcases new_with_groups_get_all insts gs h with ⟨rest, h1, h2, hnd⟩
  refine ⟨⟨rest, h1, h2⟩, ?_⟩
  intro insts2
  rcases new_with_groups_get_all insts2 _ hnd with ⟨rest2, h1', _, _⟩
  exact ⟨rest2, h1'⟩

theorem c3_witness :
    (([Group.new "gamma" "gamma", Group.mk "alpha" "alpha" true []].map Group.path).Nodup)
    ∧ (∃ rest, (GroupTree.new_with_groups c7insts
          [Group.new "gamma" "gamma", Group.mk "alpha" "alpha" true []]).get_all_groups
        = [Group.new "gamma" "gamma", Group.mk "alpha" "alpha" true []] ++ rest
      ∧ (∀ g ∈ rest, g.collapsed = false
          ∧ g.path ∉ [Group.new "gamma" "gamma",
              Group.mk "alpha" "alpha" true []].map Group.path
          ∧ ∃ i ∈ c7insts, i.group_path ≠ "" ∧ g.path ∈ cumPaths i.group_path))
    ∧ (∀ insts2, ∃ rest2,
        (GroupTree.new_with_groups insts2
            ((GroupTree.new_with_groups c7insts
              [Group.new "gamma" "gamma", Group.mk "alpha" "alpha" true []]).get_all_groups)).get_all_groups
          = (GroupTree.new_with_groups c7insts
              [Group.new "gamma" "gamma", Group.mk "alpha" "alpha" true []]).get_all_groups
            ++ rest2) :=
  ⟨by decide,
    (c3_theorem c7insts [Group.new "gamma" "gamma", Group.mk "alpha" "alpha" true []]
      (by decide)).1,
    (c3_theorem c7insts [Group.new "gamma" "gamma", Group.mk "alpha" "alpha" true []]
      (by decide)).2⟩

/-! ### Claim C8: helper lemmas for the structural flatten theorem -/

theorem str_append_cancel {a b c : String} (h : a ++ b = a ++ c) : b = c := by
  apply String.ext
  have hd := congrArg String.data h
  rw [String.data_append, String.data_append] at hd
  exact List.append_cancel_left hd

theorem data_append_slash (a b : String) :
    (a ++ "/" ++ b).data = a.data ++ '/' :: b.data := by
  rw [String.data_append, String.data_append, slash_data]
  simp

theorem strDropChars_append (a b : String) :
    strDropChars (a ++ b) a.data.length = b := by
  apply String.ext
  show ((a ++ b).data.drop a.data.length) = b.data
  rw [String.data_append]
  exact List.drop_left a.data b.data

/-- A path starting with `pat` is `pat` followed by the remaining
characters. -/
theorem sw_expand {x pat : String} (h : strStartsWith x pat = true) :
    x = pat ++ strDropChars x pat.data.length := by
  rcases strStartsWith_iff.1 h with ⟨r, rfl⟩
  rw [strDropChars_append]

theorem not_mem_of_not_contains {r : String} (h : strContains r '/' = false) :
    '/' ∉ r.data := by
  intro hmem
  have : strContains r '/' = true := by simpa [strContains] using hmem
  rw [h] at this
  cases this

theorem contains_append_slash (s r : String) :
    strContains (s ++ "/" ++ r) '/' = true := by
  rw [strContains]
  simp [data_append_slash]

theorem not_startsWith_self_slash (c : String) : strStartsWith c (c ++ "/") = false := by
  by_contra h
  rw [Bool.not_eq_false] at h
  rcases strStartsWith_iff.1 h with ⟨r, hr⟩
  have hl := congrArg (fun s : String => s.data.length) hr
  simp only [str_append_assoc] at hl
  rw [show c ++ ("/" ++ r) = c ++ "/" ++ r from (str_append_assoc c "/" r).symm] at hl
  simp only [data_append_slash] at hl
  simp at hl

theorem slashCount_concat (a b : String) :
    slashCount (a ++ "/" ++ b) = slashCount a + 1 + slashCount b := by
  show ((a ++ "/" ++ b).data).count '/' = a.data.count '/' + 1 + b.data.count '/'
  rw [data_append_slash]
  rw [show a.data ++ '/' :: b.data = a.data ++ ['/'] ++ b.data by simp]
  rw [List.count_append, List.count_append]
  have h1 : (['/'] : List Char).count '/' = 1 := rfl
  omega

theorem slashCount_zero_of_not_contains {r : String} (h : strContains r '/' = false) :
    slashCount r = 0 := by
  rw [slashCount, List.count_eq_zero]
  exact not_mem_of_not_contains h

/-- Two decompositions of the same string as "slash-free head, slash,
rest" coincide on the head. -/
theorem slash_head_unique {s₁ r₁ s₂ r₂ : String}
    (h : s₁ ++ "/" ++ r₁ = s₂ ++ "/" ++ r₂)
    (h₁ : strContains s₁ '/' = false) (h₂ : strContains s₂ '/' = false) :
    s₁ = s₂ := by
  have hd : s₁.data ++ '/' :: r₁.data = s₂.data ++ '/' :: r₂.data := by
    have := congrArg String.data h
    rw [data_append_slash, data_append_slash] at this
    exact this
  have e1 : splitChars '/' (s₁.data ++ '/' :: r₁.data)
      = s₁.data :: splitChars '/' r₁.data := by
    rw [splitChars_append_sep, splitChars_of_not_mem '/' s₁.data (not_mem_of_not_contains h₁)]
    rfl
  have e2 : splitChars '/' (s₂.data ++ '/' :: r₂.data)
      = s₂.data :: splitChars '/' r₂.data := by
    rw [splitChars_append_sep, splitChars_of_not_mem '/' s₂.data (not_mem_of_not_contains h₂)]
    rfl
  have := congrArg (splitChars '/') hd
  rw [e1, e2] at this
  exact String.ext (List.cons.injEq _ _ _ _ ▸ this).1

/-- Every path is either slash-free or splits as a slash-free head, a
slash, and a rest. -/
theorem slash_head_decomp (x : String) :
    strContains x '/' = false
    ∨ ∃ s r : String, x = s ++ "/" ++ r ∧ strContains s '/' = false := by
  rcases h : splitSlash x with _ | ⟨s, rest⟩
  · exact absurd h (splitSlash_ne_nil x)
  · have hs : strContains s '/' = false :=
      mem_splitSlash_no_slash (by rw [h]; exact List.mem_cons_self _ _)
    cases rest with
    | nil =>
      left
      have hx : x = s := by
        have hj := joinSlash_splitSlash x
        rw [h] at hj
        exact hj.symm
      rw [hx]
      exact hs
    | cons s2 rest2 =>
      right
      refine ⟨s, joinSlash (s2 :: rest2), ?_, hs⟩
      have hj := joinSlash_splitSlash x
      rw [h, joinSlash_cons s (by simp)] at hj
      exact hj.symm

theorem filterMap_const_none {α β : Type} (l : List α) :
    l.filterMap (fun _ => (none : Option β)) = [] := by
  induction l with
  | nil => rfl
  | cons a l ih => rw [List.filterMap_cons]; exact ih

theorem filterMap_session_ids (d : Nat) (l : List Instance) :
    (l.map fun i => Item.Session i.id d).filterMap sessionIdOf = l.map Instance.id := by
  rw [List.filterMap_map]
  have h : (sessionIdOf ∘ fun i : Instance => Item.Session i.id d)
      = some ∘ Instance.id := rfl
  rw [h, List.filterMap_eq_map]

theorem filterMap_session_gp (d : Nat) (l : List Instance) :
    (l.map fun i => Item.Session i.id d).filterMap groupPathOf = [] := by
  rw [List.filterMap_map]
  have h : (groupPathOf ∘ fun i : Instance => Item.Session i.id d)
      = fun _ => (none : Option String) := rfl
  rw [h]
  exact filterMap_const_none l

theorem filterMap_flatMap_comm {α β γ : Type} (l : List α) (f : α → List β)
    (g : β → Option γ) :
    (l.flatMap f).filterMap g = l.flatMap fun a => (f a).filterMap g := by
  induction l with
  | nil => rfl
  | cons a l ih => rw [List.flatMap_cons, List.flatMap_cons, List.filterMap_append, ih]

theorem sum_indicator_count {α : Type} [DecidableEq α] (c : α) :
    ∀ l : List α, (l.map fun a => if a = c then 1 else 0).sum = l.count c := by
  intro l
  induction l with
  | nil => rfl
  | cons a l ih =>
    rw [List.map_cons, List.sum_cons, ih, List.count_cons]
    by_cases h : a = c
    · rw [if_pos h, if_pos (beq_iff_eq.2 h)]
      omega
    · rw [if_neg h, if_neg (by simpa using h)]
      omega

/-- The central counting argument: if every path of `ord` satisfying `P`
is covered by exactly one path satisfying `Q`, then listing each `Q`-path
followed by its strict descendants enumerates the `P`-paths exactly once
(as a permutation). -/
theorem perm_cover_partition (ord : List String) (hnd : ord.Nodup)
    (P Q : String → Bool)
    (hPQ : ∀ c ∈ ord, Q c = true → P c = true)
    (hQdesc : ∀ c x, Q c = true → strStartsWith x (c ++ "/") = true → P x = true)
    (huniq : ∀ x ∈ ord, P x = true →
      ∃ c, c ∈ ord ∧ Q c = true ∧ covers c x = true ∧
        ∀ c', c' ∈ ord → Q c' = true → covers c' x = true → c' = c) :
    List.Perm
      ((ord.filter Q).flatMap fun c => c :: ord.filter fun p => strStartsWith p (c ++ "/"))
      (ord.filter P) := by
  rw [List.perm_iff_count]
  intro x
  rw [List.count_flatMap]
  have hcf : ∀ (R : String → Bool) (y : String),
      (ord.filter R).count y = if y ∈ ord ∧ R y = true then 1 else 0 := by
    intro R y
    by_cases hy : y ∈ ord ∧ R y = true
    · rw [if_pos hy]
      exact List.count_eq_one_of_mem (hnd.filter R) (List.mem_filter.2 ⟨hy.1, hy.2⟩)
    · rw [if_neg hy, List.count_eq_zero]
      intro hmem
      exact hy ⟨(List.mem_filter.1 hmem).1, (List.mem_filter.1 hmem).2⟩
  have hcontrib : ∀ c ∈ ord.filter Q,
      (List.count x ∘ fun c => c :: ord.filter fun p => strStartsWith p (c ++ "/")) c
        = if x ∈ ord ∧ P x = true ∧ covers c x = true then 1 else 0 := by
    intro c hc
    rcases List.mem_filter.1 hc with ⟨hc1, hc2⟩
    show List.count x (c :: ord.filter fun p => strStartsWith p (c ++ "/")) = _
    rw [List.count_cons, hcf]
    by_cases hxc : c = x
    · have hswf : ¬ (x ∈ ord ∧ strStartsWith x (c ++ "/") = true) := by
        rintro ⟨_, hsw⟩
        rw [hxc, not_startsWith_self_slash x] at hsw
        cases hsw
      rw [if_neg hswf, if_pos (beq_iff_eq.2 hxc)]
      have hBx : x ∈ ord ∧ P x = true ∧ covers c x = true := by
        refine ⟨hxc ▸ hc1, ?_, ?_⟩
        · have := hPQ c hc1 hc2
          rw [hxc] at this
          exact this
        · rw [covers, Bool.or_eq_true]
          exact Or.inl (beq_iff_eq.2 hxc.symm)
      rw [if_pos hBx]
    · rw [if_neg (fun h => hxc (beq_iff_eq.1 h))]
      by_cases hsw : x ∈ ord ∧ strStartsWith x (c ++ "/") = true
      · rw [if_pos hsw, if_pos ⟨hsw.1, hQdesc c x hc2 hsw.2, by
          rw [covers, Bool.or_eq_true]; exact Or.inr hsw.2⟩]
      · rw [if_neg hsw, if_neg (by
          rintro ⟨hx1, _, hx3⟩
          rw [covers, Bool.or_eq_true] at hx3
          rcases hx3 with heq | hsw2
          · exact hxc (beq_iff_eq.1 heq).symm
          · exact hsw ⟨hx1, hsw2⟩)]
  by_cases hx : x ∈ ord ∧ P x = true
  · rcases huniq x hx.1 hx.2 with ⟨c₀, hc₀1, hc₀2, hc₀3, hc₀4⟩
    have hmapeq : List.map
          (List.count x ∘ fun c => c :: ord.filter fun p => strStartsWith p (c ++ "/"))
          (ord.filter Q)
        = List.map (fun c => if c = c₀ then 1 else 0) (ord.filter Q) := by
      apply List.map_congr_left
      intro c hc
      rw [hcontrib c hc]
      by_cases hcc : c = c₀
      · rw [if_pos hcc, if_pos ⟨hx.1, hx.2, hcc ▸ hc₀3⟩]
      · rw [if_neg hcc, if_neg (by
          rintro ⟨_, _, hcov⟩
          rcases List.mem_filter.1 hc with ⟨hcm, hcq⟩
          exact hcc (hc₀4 c hcm hcq hcov))]
    rw [hmapeq, sum_indicator_count, hcf, hcf, if_pos ⟨hc₀1, hc₀2⟩, if_pos hx]
  · have hmap0 : List.map
          (List.count x ∘ fun c => c :: ord.filter fun p => strStartsWith p (c ++ "/"))
          (ord.filter Q)
        = List.map (fun _ => 0) (ord.filter Q) := by
      apply List.map_congr_left
      intro c hc
      rw [hcontrib c hc, if_neg (by
        rintro ⟨h1, h2, _⟩
        exact hx ⟨h1, h2⟩)]
    rw [hmap0, hcf, if_neg hx]
    simp

/-- Every strict descendant of `pp` in a prefix-closed path set is covered
by exactly one direct child of `pp` in that set. -/
theorem child_cover_exists (ord : List String) (hcl : closedUnderParents ord)
    (pp x : String) (hx : x ∈ ord) (hsw : strStartsWith x (pp ++ "/") = true) :
    ∃ c, c ∈ ord
      ∧ (strStartsWith c (pp ++ "/")
          && !(strContains (strDropChars c (pp ++ "/").data.length) '/')) = true
      ∧ covers c x = true
      ∧ ∀ c', c' ∈ ord →
          (strStartsWith c' (pp ++ "/")
            && !(strContains (strDropChars c' (pp ++ "/").data.length) '/')) = true →
          covers c' x = true → c' = c := by
  obtain ⟨rem, hxeq⟩ : ∃ rem, x = (pp ++ "/") ++ rem := ⟨_, sw_expand hsw⟩
  have hdrop : strDropChars x (pp ++ "/").data.length = rem := by
    rw [hxeq, strDropChars_append]
  rcases slash_head_decomp rem with hnos | ⟨s, r, hsr, hnos⟩
  · -- `x` itself is a direct child of `pp`
    refine ⟨x, hx, ?_, ?_, ?_⟩
    · rw [Bool.and_eq_true]
      refine ⟨hsw, ?_⟩
      rw [Bool.not_eq_true', hdrop]
      exact hnos
    · rw [covers, Bool.or_eq_true]
      exact Or.inl (beq_iff_eq.2 rfl)
    · intro c' hc' hq' hcov'
      rw [Bool.and_eq_true] at hq'
      have hq1 : strStartsWith c' (pp ++ "/") = true := hq'.1
      have hq2 : strContains (strDropChars c' (pp ++ "/").data.length) '/' = false := by
        have := hq'.2
        rwa [Bool.not_eq_true'] at this
      obtain ⟨s', hc'eq, hnos'⟩ :
          ∃ s', c' = (pp ++ "/") ++ s' ∧ strContains s' '/' = false :=
        ⟨_, sw_expand hq1, hq2⟩
      rw [covers, Bool.or_eq_true] at hcov'
      rcases hcov' with heq | hsw'
      · exact (beq_iff_eq.1 heq).symm
      · exfalso
        obtain ⟨u, hueq⟩ : ∃ u, x = (c' ++ "/") ++ u := ⟨_, sw_expand hsw'⟩
        have hd1 : x.data = (pp ++ "/").data ++ rem.data := by
          rw [hxeq, String.data_append]
        have hd2 : x.data = (pp ++ "/").data ++ (s'.data ++ '/' :: u.data) := by
          rw [hueq, hc'eq]
          rw [String.data_append, String.data_append, String.data_append, slash_data]
          simp
        have hcancel : rem.data = s'.data ++ '/' :: u.data :=
          List.append_cancel_left (hd1.symm.trans hd2)
        apply not_mem_of_not_contains hnos
        rw [hcancel]
        simp
  · -- the head segment of the remainder names the unique direct child
    have hxc : x = (pp ++ "/" ++ s) ++ "/" ++ r := by
      apply String.ext
      rw [hxeq, hsr]
      simp [String.data_append, slash_data]
    have hswc : strStartsWith x ((pp ++ "/" ++ s) ++ "/") = true :=
      strStartsWith_iff.2 ⟨r, hxc⟩
    have hcmem : pp ++ "/" ++ s ∈ ord :=
      hcl x hx (pp ++ "/" ++ s) (mem_slashAncestors_of_startsWith hswc)
    refine ⟨pp ++ "/" ++ s, hcmem, ?_, ?_, ?_⟩
    · rw [Bool.and_eq_true]
      constructor
      · exact strStartsWith_iff.2 ⟨s, rfl⟩
      · rw [Bool.not_eq_true', strDropChars_append]
        exact hnos
    · rw [covers, Bool.or_eq_true]
      exact Or.inr hswc
    · intro c' hc' hq' hcov'
      rw [Bool.and_eq_true] at hq'
      have hq1 : strStartsWith c' (pp ++ "/") = true := hq'.1
      have hq2 : strContains (strDropChars c' (pp ++ "/").data.length) '/' = false := by
        have := hq'.2
        rwa [Bool.not_eq_true'] at this
      obtain ⟨s', hc'eq, hnos'⟩ :
          ∃ s', c' = (pp ++ "/") ++ s' ∧ strContains s' '/' = false :=
        ⟨_, sw_expand hq1, hq2⟩
      rw [covers, Bool.or_eq_true] at hcov'
      rcases hcov' with heq | hsw'
      · exfalso
        have hxc' : x = c' := beq_iff_eq.1 heq
        have hre : rem = s' := by
          apply str_append_cancel (a := pp ++ "/")
          rw [← hxeq, ← hc'eq]
          exact hxc'
        apply not_mem_of_not_contains hnos'
        rw [← hre, hsr]
        rw [data_append_slash]
        simp
      · obtain ⟨u, hueq⟩ : ∃ u, x = (c' ++ "/") ++ u := ⟨_, sw_expand hsw'⟩
        have hd1 : x.data = (pp ++ "/").data ++ rem.data := by
          rw [hxeq, String.data_append]
        have hd2 : x.data = (pp ++ "/").data ++ (s'.data ++ '/' :: u.data) := by
          rw [hueq, hc'eq]
          rw [String.data_append, String.data_append, String.data_append, slash_data]
          simp
        have hcancel : rem.data = s'.data ++ '/' :: u.data :=
          List.append_cancel_left (hd1.symm.trans hd2)
        have hstr : s ++ "/" ++ r = s' ++ "/" ++ u := by
          apply String.ext
          rw [data_append_slash, data_append_slash, ← hcancel, hsr, data_append_slash]
        have hss : s = s' := slash_head_unique hstr hnos hnos'
        rw [hc'eq, ← hss]

/-- Every path in a prefix-closed path set is covered by exactly one
slash-free (root) path in that set. -/
theorem root_cover_exists (ord : List String) (hcl : closedUnderParents ord)
    (x : String) (hx : x ∈ ord) :
    ∃ c, c ∈ ord ∧ (!(strContains c '/')) = true ∧ covers c x = true
      ∧ ∀ c', c' ∈ ord → (!(strContains c' '/')) = true → covers c' x = true → c' = c := by
  rcases slash_head_decomp x with hnos | ⟨s, r, hsr, hnos⟩
  · refine ⟨x, hx, ?_, ?_, ?_⟩
    · rw [Bool.not_eq_true']
      exact hnos
    · rw [covers, Bool.or_eq_true]
      exact Or.inl (beq_iff_eq.2 rfl)
    · intro c' hc' hq' hcov'
      rw [covers, Bool.or_eq_true] at hcov'
      rcases hcov' with heq | hsw'
      · exact (beq_iff_eq.1 heq).symm
      · exfalso
        obtain ⟨u, hueq⟩ : ∃ u, x = (c' ++ "/") ++ u := ⟨_, sw_expand hsw'⟩
        have : strContains x '/' = true := by
          rw [hueq]
          exact contains_append_slash c' u
        rw [hnos] at this
        cases this
  · have hsws : strStartsWith x (s ++ "/") = true := strStartsWith_iff.2 ⟨r, hsr⟩
    have hsmem : s ∈ ord := hcl x hx s (mem_slashAncestors_of_startsWith hsws)
    refine ⟨s, hsmem, ?_, ?_, ?_⟩
    · rw [Bool.not_eq_true']
      exact hnos
    · rw [covers, Bool.or_eq_true]
      exact Or.inr hsws
    · intro c' hc' hq' hcov'
      rw [Bool.not_eq_true'] at hq'
      rw [covers, Bool.or_eq_true] at hcov'
      rcases hcov' with heq | hsw'
      · exfalso
        have hxc' : x = c' := beq_iff_eq.1 heq
        have : strContains c' '/' = true := by
          rw [← hxc', hsr]
          exact contains_append_slash s r
        rw [hq'] at this
        cases this
      · obtain ⟨u, hueq⟩ : ∃ u, x = (c' ++ "/") ++ u := ⟨_, sw_expand hsw'⟩
        exact (slash_head_unique (hsr.symm.trans hueq) hnos hq').symm

theorem filter_sublist_of_imp {α : Type} (p q : α → Bool) :
    ∀ l : List α, (∀ a ∈ l, p a = true → q a = true) →
      (l.filter p).Sublist (l.filter q) := by
  intro l
  induction l with
  | nil => intro _; exact List.Sublist.refl _
  | cons a l ih =>
    intro h
    rw [List.filter_cons, List.filter_cons]
    by_cases hp : p a = true
    · rw [if_pos hp, if_pos (h a (List.mem_cons_self _ _) hp)]
      exact List.Sublist.cons₂ a (ih fun b hb hbp => h b (List.mem_cons_of_mem a hb) hbp)
    · rw [if_neg hp]
      by_cases hq : q a = true
      · rw [if_pos hq]
        exact List.Sublist.cons a (ih fun b hb hbp => h b (List.mem_cons_of_mem a hb) hbp)
      · rw [if_neg hq]
        exact ih fun b hb hbp => h b (List.mem_cons_of_mem a hb) hbp

theorem sublist_length_lt {α : Type} {l₁ l₂ : List α} (h : l₁.Sublist l₂) {x : α}
    (hx2 : x ∈ l₂) (hx1 : x ∉ l₁) : l₁.length < l₂.length := by
  rcases Nat.lt_or_ge l₁.length l₂.length with hlt | hge
  · exact hlt
  · exfalso
    have heq : l₁.length = l₂.length := le_antisymm h.length_le hge
    rw [h.eq_of_length heq] at hx1
    exact hx1 hx2

/-- Looking up a list of present keys in a consistent mapping returns
groups carrying exactly those paths. -/
theorem filterMap_lookup_spec (t : GroupTree)
    (hm : ∀ q g', lookupA t.groups_by_path q = some g' →
      g'.path = q ∧ g'.collapsed = false) :
    ∀ L : List String, (∀ q ∈ L, containsKey t.groups_by_path q = true) →
      (L.filterMap fun p => lookupA t.groups_by_path p).map Group.path = L
      ∧ ∀ c ∈ L.filterMap fun p => lookupA t.groups_by_path p,
          c.collapsed = false ∧ lookupA t.groups_by_path c.path = some c := by
  intro L
  induction L with
  | nil => intro _; exact ⟨rfl, by intro c hc; cases hc⟩
  | cons q L ih =>
    intro h
    have hq := h q (List.mem_cons_self _ _)
    rcases lookupA_isSome_of_contains hq with ⟨g', hg'⟩
    rcases hm q g' hg' with ⟨hp, hcol⟩
    rcases ih (fun b hb => h b (List.mem_cons_of_mem q hb)) with ⟨ih1, ih2⟩
    rw [List.filterMap_cons, hg']
    constructor
    · rw [List.map_cons, ih1, hp]
    · intro c hc
      rcases List.mem_cons.1 hc with rfl | hc
      · exact ⟨hcol, by rw [hp]; exact hg'⟩
      · exact ih2 c hc

/-- The empty path only arises as a cumulative prefix of the empty path or
of a path starting with a slash. -/
theorem empty_mem_cumPaths {p : String} (h : "" ∈ cumPaths p) :
    p = "" ∨ strStartsWith p "/" = true := by
  rw [cumPaths_eq] at h
  rcases List.mem_map.1 h with ⟨k, _, hjoin⟩
  rcases hsp : splitSlash p with _ | ⟨s, rest⟩
  · exact absurd hsp (splitSlash_ne_nil p)
  · have htake : (splitSlash p).take (k + 1) = s :: rest.take k := by
      rw [hsp]
      rfl
    rw [htake] at hjoin
    cases hrt : rest.take k with
    | nil =>
      rw [hrt, joinSlash_one] at hjoin
      cases rest with
      | nil =>
        left
        have hp := joinSlash_splitSlash p
        rw [hsp, joinSlash_one] at hp
        rw [← hp]
        exact hjoin
      | cons s2 r2 =>
        right
        have hp := joinSlash_splitSlash p
        rw [hsp, joinSlash_cons s (by simp)] at hp
        rw [strStartsWith_iff]
        refine ⟨joinSlash (s2 :: r2), ?_⟩
        rw [← hp, hjoin, empty_append]
    | cons y ys =>
      exfalso
      rw [hrt, joinSlash_cons s (by simp)] at hjoin
      have := congrArg String.data hjoin
      rw [data_append_slash] at this
      simp at this

/-- The invariants of the intermediate tree built by the two folds of
`new_with_groups`, before `rebuild_tree`: duplicate-free insertion order
agreeing with the mapping keys, prefix closure, path/collapsed-consistent
mapping values, and no empty path. -/
theorem new_with_groups_invariants (bi : List Instance) (gs : List Group)
    (hnd : (gs.map Group.path).Nodup)
    (hclosed : closedUnderParents (gs.map Group.path))
    (hne : ∀ g ∈ gs, g.path ≠ "")
    (hcol : ∀ g ∈ gs, g.collapsed = false)
    (hbuild : ∀ i ∈ bi, strStartsWith i.group_path "/" = false) :
    (bi.foldl ensureInstance (gs.foldl registerGroup ⟨[], [], []⟩)).insertion_order.Nodup
    ∧ (∀ q, q ∈ (bi.foldl ensureInstance
          (gs.foldl registerGroup ⟨[], [], []⟩)).insertion_order ↔
        containsKey (bi.foldl ensureInstance
          (gs.foldl registerGroup ⟨[], [], []⟩)).groups_by_path q = true)
    ∧ closedUnderParents (bi.foldl ensureInstance
        (gs.foldl registerGroup ⟨[], [], []⟩)).insertion_order
    ∧ (∀ q g', lookupA (bi.foldl ensureInstance
          (gs.foldl registerGroup ⟨[], [], []⟩)).groups_by_path q = some g' →
        g'.path = q ∧ g'.collapsed = false)
    ∧ "" ∉ (bi.foldl ensureInstance
        (gs.foldl registerGroup ⟨[], [], []⟩)).insertion_order := by
  rcases foldRegister_spec gs ⟨[], [], []⟩ with ⟨r1, r2, _⟩
  rcases foldEnsure_spec bi (gs.foldl registerGroup ⟨[], [], []⟩) with
    ⟨np, f1, f2, f3, f4, f5, _⟩
  have horder : (bi.foldl ensureInstance
      (gs.foldl registerGroup ⟨[], [], []⟩)).insertion_order = gs.map Group.path ++ np := by
    rw [f1, r1]
    rfl
  have hdisj : ∀ q ∈ np, q ∉ gs.map Group.path := by
    intro q hq hmem
    have h1 := (f3 q hq).1
    have h2 := (r2 q).2 (Or.inr hmem)
    rw [h1] at h2
    cases h2
  have hk : ∀ q, q ∈ (bi.foldl ensureInstance
      (gs.foldl registerGroup ⟨[], [], []⟩)).insertion_order ↔
      containsKey (bi.foldl ensureInstance
        (gs.foldl registerGroup ⟨[], [], []⟩)).groups_by_path q = true := by
    intro q
    rw [horder, f5 q, r2 q, List.mem_append]
    have hempty : containsKey (⟨[], [], []⟩ : GroupTree).groups_by_path q = false := rfl
    rw [hempty]
    constructor
    · rintro (h | h)
      · exact Or.inl (Or.inr h)
      · exact Or.inr h
    · rintro ((h | h) | h)
      · cases h
      · exact Or.inl h
      · exact Or.inr h
  refine ⟨?_, hk, ?_, ?_, ?_⟩
  · rw [horder]
    exact List.nodup_append.2 ⟨hnd, f2, fun a ha hna => hdisj a hna ha⟩
  · -- prefix closure of the insertion order
    have hclk : closedUnderParents (keysOf (bi.foldl ensureInstance
        (gs.foldl registerGroup ⟨[], [], []⟩)).groups_by_path) := by
      refine closed_foldEnsure bi _ ?_
      refine closed_congr (fun q => ?_) hclosed
      rw [← containsKey_iff, r2 q]
      constructor
      · exact Or.inr
      · rintro (h | h)
        · cases h
        · exact h
    refine closed_congr (fun q => ?_) hclk
    rw [← containsKey_iff, ← hk q]
  · intro q g' hlk
    have hcont := contains_of_lookup_some hlk
    have hord := (hk q).2 hcont
    rw [horder] at hord
    rcases List.mem_append.1 hord with hmem | hmem
    · rcases List.mem_map.1 hmem with ⟨g, hg, rfl⟩
      have hreg : containsKey
          (gs.foldl registerGroup (⟨[], [], []⟩ : GroupTree)).groups_by_path g.path = true :=
        (r2 g.path).2 (Or.inr (List.mem_map_of_mem Group.path hg))
      rw [f4 g.path hreg, foldRegister_lookup_mem gs _ hnd g hg] at hlk
      injection hlk with hgg
      rw [← hgg]
      exact ⟨rfl, hcol g hg⟩
    · rcases (f3 q hmem).2.2 with ⟨nm, hnm⟩
      rw [hnm] at hlk
      cases hlk
      exact ⟨rfl, rfl⟩
  · rw [horder]
    intro hmem
    rcases List.mem_append.1 hmem with hmem | hmem
    · rcases List.mem_map.1 hmem with ⟨g, hg, hpath⟩
      exact hne g hg hpath
    · rcases (f3 "" hmem).2.1 with ⟨i, hi, hgp, hcum⟩
      rcases empty_mem_cumPaths hcum with h | h
      · exact hgp h
      · have := hbuild i hi
        rw [h] at this
        cases this

theorem sw_trans_slash {x c pfx : String} (h1 : strStartsWith c pfx = true)
    (h2 : strStartsWith x (c ++ "/") = true) : strStartsWith x pfx = true := by
  rcases strStartsWith_iff.1 h1 with ⟨s, rfl⟩
  rcases strStartsWith_iff.1 h2 with ⟨u, hu⟩
  rw [strStartsWith_iff]
  refine ⟨s ++ "/" ++ u, ?_⟩
  rw [hu]
  apply String.ext
  simp [String.data_append]

/-- The main structural lemma: flattening a subtree built by
`build_children` from a consistent, prefix-closed, fully-expanded tree
emits exactly one `Group` item per key at or below the parent (as a
permutation), exactly the sessions filed under those keys, and every
`Group` item at depth governed by its slash count. -/
theorem build_flatten_spec :
    ∀ (fuel : Nat) (t : GroupTree) (g : Group),
      t.insertion_order.Nodup →
      (∀ q, q ∈ t.insertion_order ↔ containsKey t.groups_by_path q = true) →
      closedUnderParents t.insertion_order →
      (∀ q g', lookupA t.groups_by_path q = some g' →
        g'.path = q ∧ g'.collapsed = false) →
      g.collapsed = false →
      (t.insertion_order.filter fun p =>
        decide (g.path.data.length < p.data.length)).length < fuel →
      ∀ (insts : List Instance) (s : SortOrder) (d : Nat),
        List.Perm
          ((flatten_group (GroupTree.build_children fuel t g) insts d s).filterMap
            groupPathOf)
          (g.path :: t.insertion_order.filter fun p => strStartsWith p (g.path ++ "/"))
        ∧ List.Perm
            ((flatten_group (GroupTree.build_children fuel t g) insts d s).filterMap
              sessionIdOf)
            ((g.path :: t.insertion_order.filter fun p =>
                strStartsWith p (g.path ++ "/")).flatMap
              fun p => (insts.filter fun i => i.group_path == p).map Instance.id)
        ∧ ∀ p n dd cc k, Item.Group p n dd cc k ∈
              flatten_group (GroupTree.build_children fuel t g) insts d s →
            dd + slashCount g.path = d + slashCount p := by
  intro fuel
  induction fuel with
  | zero =>
    intro t g _ _ _ _ _ hfuel
    exact absurd hfuel (Nat.not_lt_zero _)
  | succ fuel ih =>
    intro t g hnd hk hcl hm hgcol hfuel insts s d
    have hbuild : GroupTree.build_children (fuel + 1) t g
        = Group.mk g.name g.path g.collapsed
            (((t.insertion_order.filter fun p =>
                  containsKey t.groups_by_path p && strStartsWith p (g.path ++ "/")
                    && !(strContains (strDropChars p (g.path ++ "/").data.length) '/')).filterMap
                fun p => lookupA t.groups_by_path p).map
              fun c => GroupTree.build_children fuel t c) := rfl
    have hcps : (t.insertion_order.filter fun p =>
          containsKey t.groups_by_path p && strStartsWith p (g.path ++ "/")
            && !(strContains (strDropChars p (g.path ++ "/").data.length) '/'))
        = t.insertion_order.filter fun p =>
            strStartsWith p (g.path ++ "/")
              && !(strContains (strDropChars p (g.path ++ "/").data.length) '/') := by
      apply List.filter_congr
      intro p hp
      rw [(hk p).1 hp]
      rfl
    have hcontain : ∀ q ∈ t.insertion_order.filter fun p =>
          strStartsWith p (g.path ++ "/")
            && !(strContains (strDropChars p (g.path ++ "/").data.length) '/'),
        containsKey t.groups_by_path q = true :=
      fun q hq => (hk q).1 (List.mem_filter.1 hq).1
    rcases filterMap_lookup_spec t hm _ hcontain with ⟨hpaths, hvals⟩
    have hcpath : (GroupTree.build_children (fuel + 1) t g).path = g.path := by
      rw [hbuild]
      rfl
    have hcname : (GroupTree.build_children (fuel + 1) t g).name = g.name := by
      rw [hbuild]
      rfl
    have hccol : (GroupTree.build_children (fuel + 1) t g).collapsed = false := by
      rw [hbuild]
      exact hgcol
    have hcchildren : (GroupTree.build_children (fuel + 1) t g).children
        = ((t.insertion_order.filter fun p =>
              strStartsWith p (g.path ++ "/")
                && !(strContains (strDropChars p (g.path ++ "/").data.length)
                      '/')).filterMap
            fun p => lookupA t.groups_by_path p).map
              fun c => GroupTree.build_children fuel t c := by
      rw [hbuild]
      show ((t.insertion_order.filter fun p =>
          containsKey t.groups_by_path p && strStartsWith p (g.path ++ "/")
            && !(strContains (strDropChars p (g.path ++ "/").data.length) '/')).filterMap
        fun p => lookupA t.groups_by_path p).map
          (fun c => GroupTree.build_children fuel t c) = _
      rw [hcps]
    have hflat : flatten_group (GroupTree.build_children (fuel + 1) t g) insts d s
        = Item.Group g.path g.name d false (count_sessions_in_group g.path insts)
          :: ((sort_by_key (insts.filter fun i => i.group_path == g.path) s
                  fun i => i.title).map (fun i => Item.Session i.id (d + 1))
            ++ ((sort_by_key
                  (((t.insertion_order.filter fun p =>
                      strStartsWith p (g.path ++ "/")
                        && !(strContains (strDropChars p (g.path ++ "/").data.length)
                              '/')).filterMap
                    fun p => lookupA t.groups_by_path p).map
                      fun c => GroupTree.build_children fuel t c) s Group.name).map
                fun c => flatten_group c insts (d + 1) s).flatten) := by
      rw [flatten_group_eq, if_neg (by rw [hccol]; exact Bool.false_ne_true),
        hcpath, hcname, hcchildren, hccol]
    -- every child carries a path one level below the parent
    have hcsc : ∀ c ∈ (t.insertion_order.filter fun p =>
          strStartsWith p (g.path ++ "/")
            && !(strContains (strDropChars p (g.path ++ "/").data.length) '/')).filterMap
        (fun p => lookupA t.groups_by_path p),
        slashCount c.path = slashCount g.path + 1 := by
      intro c hc
      have hcp : c.path ∈ t.insertion_order.filter fun p =>
          strStartsWith p (g.path ++ "/")
            && !(strContains (strDropChars p (g.path ++ "/").data.length) '/') := by
        rw [← hpaths]
        exact List.mem_map_of_mem Group.path hc
      rcases List.mem_filter.1 hcp with ⟨_, hq⟩
      rw [Bool.and_eq_true] at hq
      obtain ⟨rem, hre⟩ : ∃ rem, c.path = (g.path ++ "/") ++ rem := ⟨_, sw_expand hq.1⟩
      have hrs : strContains rem '/' = false := by
        have h2 := hq.2
        rw [Bool.not_eq_true'] at h2
        rw [hre, strDropChars_append] at h2
        exact h2
      rw [hre, slashCount_concat, slashCount_zero_of_not_contains hrs]
    -- the induction hypothesis, specialised to each child
    have hchild : ∀ c ∈ (t.insertion_order.filter fun p =>
          strStartsWith p (g.path ++ "/")
            && !(strContains (strDropChars p (g.path ++ "/").data.length) '/')).filterMap
        (fun p => lookupA t.groups_by_path p),
        List.Perm
          ((flatten_group (GroupTree.build_children fuel t c) insts (d + 1) s).filterMap
            groupPathOf)
          (c.path :: t.insertion_order.filter fun q => strStartsWith q (c.path ++ "/"))
        ∧ List.Perm
            ((flatten_group (GroupTree.build_children fuel t c) insts (d + 1) s).filterMap
              sessionIdOf)
            ((c.path :: t.insertion_order.filter fun q =>
                strStartsWith q (c.path ++ "/")).flatMap
              fun p => (insts.filter fun i => i.group_path == p).map Instance.id)
        ∧ ∀ p n dd cc k, Item.Group p n dd cc k ∈
              flatten_group (GroupTree.build_children fuel t c) insts (d + 1) s →
            dd + slashCount c.path = (d + 1) + slashCount p := by
      intro c hc
      rcases hvals c hc with ⟨hccol, _⟩
      have hcp : c.path ∈ t.insertion_order.filter fun p =>
          strStartsWith p (g.path ++ "/")
            && !(strContains (strDropChars p (g.path ++ "/").data.length) '/') := by
        rw [← hpaths]
        exact List.mem_map_of_mem Group.path hc
      rcases List.mem_filter.1 hcp with ⟨hcord, hq⟩
      rw [Bool.and_eq_true] at hq
      have hlonger : g.path.data.length < c.path.data.length := by
        obtain ⟨rem, hre⟩ : ∃ rem, c.path = (g.path ++ "/") ++ rem := ⟨_, sw_expand hq.1⟩
        have hlen := congrArg (fun st : String => st.data.length) hre
        simp only [String.data_append, slash_data, List.length_append,
          List.length_cons, List.length_nil] at hlen
        omega
      have hsub : (t.insertion_order.filter fun p =>
            decide (c.path.data.length < p.data.length)).Sublist
          (t.insertion_order.filter fun p =>
            decide (g.path.data.length < p.data.length)) := by
        apply filter_sublist_of_imp
        intro a _ hpa
        rw [decide_eq_true_eq] at hpa ⊢
        omega
      have hnotmem : c.path ∉ t.insertion_order.filter fun p =>
          decide (c.path.data.length < p.data.length) := by
        intro hmm
        have h2 := (List.mem_filter.1 hmm).2
        rw [decide_eq_true_eq] at h2
        omega
      have hmem2 : c.path ∈ t.insertion_order.filter fun p =>
          decide (g.path.data.length < p.data.length) :=
        List.mem_filter.2 ⟨hcord, by rw [decide_eq_true_eq]; exact hlonger⟩
      have hflt : (t.insertion_order.filter fun p =>
          decide (c.path.data.length < p.data.length)).length < fuel := by
        have hlt := sublist_length_lt hsub hmem2 hnotmem
        omega
      exact ih t c hnd hk hcl hm hccol hflt insts s (d + 1)
    -- the cover-partition hypotheses at this parent
    have hPQ : ∀ c ∈ t.insertion_order,
        (strStartsWith c (g.path ++ "/")
          && !(strContains (strDropChars c (g.path ++ "/").data.length) '/')) = true →
        strStartsWith c (g.path ++ "/") = true := by
      intro c _ hqc
      rw [Bool.and_eq_true] at hqc
      exact hqc.1
    have hQdesc : ∀ c x,
        (strStartsWith c (g.path ++ "/")
          && !(strContains (strDropChars c (g.path ++ "/").data.length) '/')) = true →
        strStartsWith x (c ++ "/") = true →
        strStartsWith x (g.path ++ "/") = true := by
      intro c x hqc hswx
      rw [Bool.and_eq_true] at hqc
      exact sw_trans_slash hqc.1 hswx
    have hcover := perm_cover_partition t.insertion_order hnd
      (fun p => strStartsWith p (g.path ++ "/"))
      (fun p => strStartsWith p (g.path ++ "/")
        && !(strContains (strDropChars p (g.path ++ "/").data.length) '/'))
      hPQ hQdesc
      (fun x hx hpx => child_cover_exists t.insertion_order hcl g.path x hx hpx)
    refine ⟨?_, ?_, ?_⟩
    · -- group paths
      rw [hflat]
      simp only [List.filterMap_cons, groupPathOf, List.filterMap_append,
        filterMap_session_gp, List.nil_append, ← List.flatMap_def, filterMap_flatMap_comm]
      refine List.Perm.cons g.path ?_
      have h1 : List.Perm
          ((sort_by_key (((t.insertion_order.filter fun p =>
                strStartsWith p (g.path ++ "/")
                  && !(strContains (strDropChars p (g.path ++ "/").data.length)
                        '/')).filterMap
              fun p => lookupA t.groups_by_path p).map
                fun c => GroupTree.build_children fuel t c) s Group.name).flatMap
            fun c => (flatten_group c insts (d + 1) s).filterMap groupPathOf)
          ((((t.insertion_order.filter fun p =>
                strStartsWith p (g.path ++ "/")
                  && !(strContains (strDropChars p (g.path ++ "/").data.length)
                        '/')).filterMap
              fun p => lookupA t.groups_by_path p).map
                fun c => GroupTree.build_children fuel t c).flatMap
            fun c => (flatten_group c insts (d + 1) s).filterMap groupPathOf) :=
        List.Perm.flatMap_right _ (sort_by_key_perm _ _ _)
      have h2 : List.Perm
          ((((t.insertion_order.filter fun p =>
                strStartsWith p (g.path ++ "/")
                  && !(strContains (strDropChars p (g.path ++ "/").data.length)
                        '/')).filterMap
              fun p => lookupA t.groups_by_path p).map
                fun c => GroupTree.build_children fuel t c).flatMap
            fun c => (flatten_group c insts (d + 1) s).filterMap groupPathOf)
          ((t.insertion_order.filter fun p =>
              strStartsWith p (g.path ++ "/")
                && !(strContains (strDropChars p (g.path ++ "/").data.length)
                      '/')).flatMap
            fun p => p :: t.insertion_order.filter fun q =>
              strStartsWith q (p ++ "/")) := by
        rw [List.flatMap_map]
        nth_rewrite 2 [← hpaths]
        rw [List.flatMap_map]
        exact List.Perm.flatMap_left _ fun c hc => (hchild c hc).1
      exact (h1.trans h2).trans hcover
    · -- session ids
      rw [hflat]
      simp only [List.filterMap_cons, sessionIdOf, List.filterMap_append,
        filterMap_session_ids, ← List.flatMap_def, filterMap_flatMap_comm,
        List.flatMap_cons]
      refine List.Perm.append ?_ ?_
      · exact List.Perm.map Instance.id (sort_by_key_perm _ _ _)
      · have h1 : List.Perm
            ((sort_by_key (((t.insertion_order.filter fun p =>
                  strStartsWith p (g.path ++ "/")
                    && !(strContains (strDropChars p (g.path ++ "/").data.length)
                          '/')).filterMap
                fun p => lookupA t.groups_by_path p).map
                  fun c => GroupTree.build_children fuel t c) s Group.name).flatMap
              fun c => (flatten_group c insts (d + 1) s).filterMap sessionIdOf)
            ((((t.insertion_order.filter fun p =>
                  strStartsWith p (g.path ++ "/")
                    && !(strContains (strDropChars p (g.path ++ "/").data.length)
                          '/')).filterMap
                fun p => lookupA t.groups_by_path p).map
                  fun c => GroupTree.build_children fuel t c).flatMap
              fun c => (flatten_group c insts (d + 1) s).filterMap sessionIdOf) :=
          List.Perm.flatMap_right _ (sort_by_key_perm _ _ _)
        have h2 : List.Perm
            ((((t.insertion_order.filter fun p =>
                  strStartsWith p (g.path ++ "/")
                    && !(strContains (strDropChars p (g.path ++ "/").data.length)
                          '/')).filterMap
                fun p => lookupA t.groups_by_path p).map
                  fun c => GroupTree.build_children fuel t c).flatMap
              fun c => (flatten_group c insts (d + 1) s).filterMap sessionIdOf)
            ((t.insertion_order.filter fun p =>
                strStartsWith p (g.path ++ "/")
                  && !(strContains (strDropChars p (g.path ++ "/").data.length)
                        '/')).flatMap
              fun p => (p :: t.insertion_order.filter fun q =>
                  strStartsWith q (p ++ "/")).flatMap
                fun p => (insts.filter fun i => i.group_path == p).map Instance.id) := by
          rw [List.flatMap_map]
          nth_rewrite 2 [← hpaths]
          rw [List.flatMap_map]
          exact List.Perm.flatMap_left _ fun c hc => (hchild c hc).2.1
        have h3 : List.Perm
            ((t.insertion_order.filter fun p =>
                strStartsWith p (g.path ++ "/")
                  && !(strContains (strDropChars p (g.path ++ "/").data.length)
                        '/')).flatMap
              fun p => (p :: t.insertion_order.filter fun q =>
                  strStartsWith q (p ++ "/")).flatMap
                fun p => (insts.filter fun i => i.group_path == p).map Instance.id)
            ((t.insertion_order.filter fun p =>
                strStartsWith p (g.path ++ "/")).flatMap
              fun p => (insts.filter fun i => i.group_path == p).map Instance.id) := by
          rw [← List.flatMap_assoc]
          exact List.Perm.flatMap_right _ hcover
        exact (h1.trans h2).trans h3
    · -- depths
      intro p n dd cc k hmem
      rw [hflat] at hmem
      rcases List.mem_cons.1 hmem with heq | hmem
      · injection heq with hp _ hd _ _
        subst hp
        subst hd
        rfl
      · rcases List.mem_append.1 hmem with hmem | hmem
        · rcases List.mem_map.1 hmem with ⟨i, _, hieq⟩
          cases hieq
        · rcases List.mem_flatten.1 hmem with ⟨sub, hsub, hitem⟩
          rcases List.mem_map.1 hsub with ⟨c', hc', rfl⟩
          have hc'2 := mem_sort_by_key.1 hc'
          rcases List.mem_map.1 hc'2 with ⟨c, hcchs, rfl⟩
          have hdep := (hchild c hcchs).2.2 p n dd cc k hitem
          have hsc := hcsc c hcchs
          omega

theorem filter_or_perm {α : Type} (P Q R : α → Bool) :
    ∀ l : List α,
      (∀ x ∈ l, R x = true ↔ (P x = true ∨ Q x = true)) →
      (∀ x ∈ l, ¬(P x = true ∧ Q x = true)) →
      List.Perm (l.filter P ++ l.filter Q) (l.filter R) := by
  intro l
  induction l with
  | nil => intro _ _; rfl
  | cons a l ih =>
    intro hR hD
    have ih' := ih (fun x hx => hR x (List.mem_cons_of_mem a hx))
      (fun x hx => hD x (List.mem_cons_of_mem a hx))
    rw [List.filter_cons, List.filter_cons, List.filter_cons]
    by_cases hP : P a = true
    · have hQ : Q a = false := by
        cases h : Q a with
        | false => rfl
        | true => exact absurd ⟨hP, h⟩ (hD a (List.mem_cons_self _ _))
      have hRa : R a = true := (hR a (List.mem_cons_self _ _)).2 (Or.inl hP)
      rw [if_pos hP, if_pos hRa, if_neg (by rw [hQ]; exact Bool.false_ne_true)]
      exact List.Perm.cons a ih'
    · by_cases hQ : Q a = true
      · have hRa : R a = true := (hR a (List.mem_cons_self _ _)).2 (Or.inr hQ)
        rw [if_neg hP, if_pos hQ, if_pos hRa]
        exact List.perm_middle.trans (List.Perm.cons a ih')
      · have hRa : R a = false := by
          cases h : R a with
          | false => rfl
          | true =>
            rcases (hR a (List.mem_cons_self _ _)).1 h with hp | hq
            · exact absurd hp hP
            · exact absurd hq hQ
        rw [if_neg hP, if_neg hQ, if_neg (by rw [hRa]; exact Bool.false_ne_true)]
        exact ih'

/-- Collecting, key by key over a duplicate-free key list, the instances
filed under each key enumerates exactly the instances filed under some key
of the list. -/
theorem flatMap_filter_perm (insts : List Instance) :
    ∀ L : List String, L.Nodup →
      List.Perm (L.flatMap fun p => insts.filter fun i => i.group_path == p)
        (insts.filter fun i => L.contains i.group_path) := by
  intro L
  induction L with
  | nil =>
    intro _
    have hnil : (insts.filter fun i => ([] : List String).contains i.group_path) = [] := by
      apply List.filter_eq_nil_iff.2
      intro i _
      simp
    rw [hnil]
    rfl
  | cons p L ih =>
    intro hnd
    rw [List.nodup_cons] at hnd
    rw [List.flatMap_cons]
    refine (List.Perm.append_left _ (ih hnd.2)).trans ?_
    apply filter_or_perm (fun i => i.group_path == p)
      (fun i => L.contains i.group_path)
      (fun i => (p :: L).contains i.group_path) insts
    · intro i _
      constructor
      · intro h
        rcases List.mem_cons.1 (List.elem_iff.1 h) with heq | hmem
        · exact Or.inl (beq_iff_eq.2 heq)
        · exact Or.inr (List.elem_iff.2 hmem)
      · rintro (h | h)
        · exact List.elem_iff.2 (List.mem_cons.2 (Or.inl (beq_iff_eq.1 h)))
        · exact List.elem_iff.2 (List.mem_cons.2 (Or.inr (List.elem_iff.1 h)))
    · intro i _
      rintro ⟨h1, h2⟩
      exact hnd.1 ((beq_iff_eq.1 h1) ▸ List.elem_iff.1 h2)

theorem filter_partition_perm {α : Type} (P Q : α → Bool) :
    ∀ l : List α, (∀ x ∈ l, P x = true ↔ ¬ Q x = true) →
      List.Perm (l.filter P ++ l.filter Q) l := by
  intro l
  induction l with
  | nil => intro _; rfl
  | cons a l ih =>
    intro h
    have ih' := ih fun x hx => h x (List.mem_cons_of_mem a hx)
    rw [List.filter_cons, List.filter_cons]
    by_cases hP : P a = true
    · have hQ : Q a = false := by
        have hnq := (h a (List.mem_cons_self _ _)).1 hP
        cases hq : Q a with
        | false => rfl
        | true => exact absurd hq hnq
      rw [if_pos hP, if_neg (by rw [hQ]; exact Bool.false_ne_true)]
      exact List.Perm.cons a ih'
    · have hQ : Q a = true := by
        by_contra hq
        exact hP ((h a (List.mem_cons_self _ _)).2 hq)
      rw [if_neg hP, if_pos hQ]
      exact List.perm_middle.trans (List.Perm.cons a ih')

/-- Root-level assembly of `build_flatten_spec`: flattening a rebuilt
tree with the stated invariants emits one `Group` item per insertion-order
entry, one `Session` item per instance, and every `Group` item at depth
equal to its slash count. -/
theorem rebuild_flatten_spec (t : GroupTree) (insts : List Instance) (s : SortOrder)
    (hnd : t.insertion_order.Nodup)
    (hk : ∀ q, q ∈ t.insertion_order ↔ containsKey t.groups_by_path q = true)
    (hcl : closedUnderParents t.insertion_order)
    (hm : ∀ q g', lookupA t.groups_by_path q = some g' →
      g'.path = q ∧ g'.collapsed = false)
    (hempty : "" ∉ t.insertion_order)
    (hexists : ∀ i ∈ insts, i.group_path ≠ "" →
      containsKey t.groups_by_path i.group_path = true) :
    List.Perm ((flatten_tree t.rebuild_tree insts s).filterMap groupPathOf)
        t.insertion_order
    ∧ List.Perm ((flatten_tree t.rebuild_tree insts s).filterMap sessionIdOf)
        (insts.map Instance.id)
    ∧ ∀ p n dd cc k, Item.Group p n dd cc k ∈ flatten_tree t.rebuild_tree insts s →
        dd = slashCount p := by
  have hrp : (t.insertion_order.filter fun p =>
        containsKey t.groups_by_path p && !(strContains p '/'))
      = t.insertion_order.filter fun p => !(strContains p '/') := by
    apply List.filter_congr
    intro p hp
    rw [(hk p).1 hp]
    rfl
  have hroots : (t.rebuild_tree).roots
      = ((t.insertion_order.filter fun p => !(strContains p '/')).filterMap
          fun p => lookupA t.groups_by_path p).map
        fun r => GroupTree.build_children (t.groups_by_path.length + 1) t r := by
    show ((t.insertion_order.filter fun p =>
        containsKey t.groups_by_path p && !(strContains p '/')).filterMap
          fun p => lookupA t.groups_by_path p).map
        (fun r => GroupTree.build_children (t.groups_by_path.length + 1) t r) = _
    rw [hrp]
  have hcontainR : ∀ q ∈ t.insertion_order.filter fun p => !(strContains p '/'),
      containsKey t.groups_by_path q = true :=
    fun q hq => (hk q).1 (List.mem_filter.1 hq).1
  rcases filterMap_lookup_spec t hm _ hcontainR with ⟨hpathsR, hvalsR⟩
  have hrootspec : ∀ r ∈ (t.insertion_order.filter fun p =>
        !(strContains p '/')).filterMap (fun p => lookupA t.groups_by_path p),
      List.Perm
        ((flatten_group (GroupTree.build_children (t.groups_by_path.length + 1) t r)
            insts 0 s).filterMap groupPathOf)
        (r.path :: t.insertion_order.filter fun q => strStartsWith q (r.path ++ "/"))
      ∧ List.Perm
          ((flatten_group (GroupTree.build_children (t.groups_by_path.length + 1) t r)
              insts 0 s).filterMap sessionIdOf)
          ((r.path :: t.insertion_order.filter fun q =>
              strStartsWith q (r.path ++ "/")).flatMap
            fun p => (insts.filter fun i => i.group_path == p).map Instance.id)
      ∧ ∀ p n dd cc k, Item.Group p n dd cc k ∈
            flatten_group (GroupTree.build_children (t.groups_by_path.length + 1) t r)
              insts 0 s →
          dd + slashCount r.path = 0 + slashCount p := by
    intro r hr
    rcases hvalsR r hr with ⟨hrcol, _⟩
    have hfb : (t.insertion_order.filter fun p =>
        decide (r.path.data.length < p.data.length)).length
        < t.groups_by_path.length + 1 := by
      have h1 := List.length_filter_le
        (fun p => decide (r.path.data.length < p.data.length)) t.insertion_order
      have hsub : t.insertion_order ⊆ keysOf t.groups_by_path := by
        intro q hq
        rw [← containsKey_iff]
        exact (hk q).1 hq
      have h2 := (hnd.subperm hsub).length_le
      simp only [keysOf, List.length_map] at h2
      omega
    exact build_flatten_spec (t.groups_by_path.length + 1) t r hnd hk hcl hm hrcol hfb
      insts s 0
  have hrzero : ∀ r ∈ (t.insertion_order.filter fun p =>
        !(strContains p '/')).filterMap (fun p => lookupA t.groups_by_path p),
      slashCount r.path = 0 := by
    intro r hr
    have hrpm : r.path ∈ t.insertion_order.filter fun p => !(strContains p '/') := by
      rw [← hpathsR]
      exact List.mem_map_of_mem Group.path hr
    have hq := (List.mem_filter.1 hrpm).2
    rw [Bool.not_eq_true'] at hq
    exact slashCount_zero_of_not_contains hq
  have hcoverR := perm_cover_partition t.insertion_order hnd (fun _ => true)
    (fun p => !(strContains p '/')) (fun _ _ _ => rfl) (fun _ _ _ _ => rfl)
    (fun x hx _ => root_cover_exists t.insertion_order hcl x hx)
  rw [List.filter_true] at hcoverR
  refine ⟨?_, ?_, ?_⟩
  · -- one Group item per insertion-order entry
    rw [flatten_tree_eq, hroots]
    simp only [List.filterMap_append, filterMap_session_gp, List.nil_append,
      ← List.flatMap_def, filterMap_flatMap_comm]
    have h1 : List.Perm
        ((sort_by_key (((t.insertion_order.filter fun p =>
              !(strContains p '/')).filterMap fun p => lookupA t.groups_by_path p).map
            fun r => GroupTree.build_children (t.groups_by_path.length + 1) t r) s
              Group.name).flatMap
          fun r => (flatten_group r insts 0 s).filterMap groupPathOf)
        ((((t.insertion_order.filter fun p =>
              !(strContains p '/')).filterMap fun p => lookupA t.groups_by_path p).map
            fun r => GroupTree.build_children (t.groups_by_path.length + 1) t r).flatMap
          fun r => (flatten_group r insts 0 s).filterMap groupPathOf) :=
      List.Perm.flatMap_right _ (sort_by_key_perm _ _ _)
    have h2 : List.Perm
        ((((t.insertion_order.filter fun p =>
              !(strContains p '/')).filterMap fun p => lookupA t.groups_by_path p).map
            fun r => GroupTree.build_children (t.groups_by_path.length + 1) t r).flatMap
          fun r => (flatten_group r insts 0 s).filterMap groupPathOf)
        ((t.insertion_order.filter fun p => !(strContains p '/')).flatMap
          fun p => p :: t.insertion_order.filter fun q => strStartsWith q (p ++ "/")) := by
      rw [List.flatMap_map]
      nth_rewrite 2 [← hpathsR]
      rw [List.flatMap_map]
      exact List.Perm.flatMap_left _ fun r hr => (hrootspec r hr).1
    exact (h1.trans h2).trans hcoverR
  · -- one Session item per instance
    rw [flatten_tree_eq, hroots]
    simp only [List.filterMap_append, filterMap_session_ids, ← List.flatMap_def,
      filterMap_flatMap_comm]
    have hu : List.Perm
        ((sort_by_key (insts.filter fun i => i.group_path == "") s
            fun i => i.title).map Instance.id)
        ((insts.filter fun i => i.group_path == "").map Instance.id) :=
      List.Perm.map Instance.id (sort_by_key_perm _ _ _)
    have h1 : List.Perm
        ((sort_by_key (((t.insertion_order.filter fun p =>
              !(strContains p '/')).filterMap fun p => lookupA t.groups_by_path p).map
            fun r => GroupTree.build_children (t.groups_by_path.length + 1) t r) s
              Group.name).flatMap
          fun r => (flatten_group r insts 0 s).filterMap sessionIdOf)
        ((((t.insertion_order.filter fun p =>
              !(strContains p '/')).filterMap fun p => lookupA t.groups_by_path p).map
            fun r => GroupTree.build_children (t.groups_by_path.length + 1) t r).flatMap
          fun r => (flatten_group r insts 0 s).filterMap sessionIdOf) :=
      List.Perm.flatMap_right _ (sort_by_key_perm _ _ _)
    have h2 : List.Perm
        ((((t.insertion_order.filter fun p =>
              !(strContains p '/')).filterMap fun p => lookupA t.groups_by_path p).map
            fun r => GroupTree.build_children (t.groups_by_path.length + 1) t r).flatMap
          fun r => (flatten_group r insts 0 s).filterMap sessionIdOf)
        ((t.insertion_order.filter fun p => !(strContains p '/')).flatMap
          fun p => (p :: t.insertion_order.filter fun q =>
              strStartsWith q (p ++ "/")).flatMap
            fun p => (insts.filter fun i => i.group_path == p).map Instance.id) := by
      rw [List.flatMap_map]
      nth_rewrite 2 [← hpathsR]
      rw [List.flatMap_map]
      exact List.Perm.flatMap_left _ fun r hr => (hrootspec r hr).2.1
    have h3 : List.Perm
        ((t.insertion_order.filter fun p => !(strContains p '/')).flatMap
          fun p => (p :: t.insertion_order.filter fun q =>
              strStartsWith q (p ++ "/")).flatMap
            fun p => (insts.filter fun i => i.group_path == p).map Instance.id)
        (t.insertion_order.flatMap
          fun p => (insts.filter fun i => i.group_path == p).map Instance.id) := by
      rw [← List.flatMap_assoc]
      exact List.Perm.flatMap_right _ hcoverR
    have h4 : List.Perm
        (t.insertion_order.flatMap
          fun p => (insts.filter fun i => i.group_path == p).map Instance.id)
        ((insts.filter fun i => t.insertion_order.contains i.group_path).map
          Instance.id) := by
      rw [← List.map_flatMap]
      exact List.Perm.map Instance.id (flatMap_filter_perm insts t.insertion_order hnd)
    have h5 : List.Perm
        ((insts.filter fun i => i.group_path == "").map Instance.id
          ++ (insts.filter fun i => t.insertion_order.contains i.group_path).map
              Instance.id)
        (insts.map Instance.id) := by
      rw [← List.map_append]
      refine List.Perm.map Instance.id ?_
      apply filter_partition_perm
      intro i hi
      constructor
      · intro hP hcont
        have hmem := List.elem_iff.1 hcont
        rw [beq_iff_eq.1 hP] at hmem
        exact hempty hmem
      · intro hncont
        by_contra hbeq
        have hgp : i.group_path ≠ "" := fun h => hbeq (beq_iff_eq.2 h)
        exact hncont (List.elem_iff.2 ((hk _).2 (hexists i hi hgp)))
    exact (List.Perm.append hu ((h1.trans h2).trans (h3.trans h4))).trans h5
  · -- depths
    intro p n dd cc k hmem
    rw [flatten_tree_eq, hroots] at hmem
    rcases List.mem_append.1 hmem with hmem | hmem
    · rcases List.mem_map.1 hmem with ⟨i, _, hieq⟩
      cases hieq
    · rcases List.mem_flatten.1 hmem with ⟨sub, hsub, hitem⟩
      rcases List.mem_map.1 hsub with ⟨r', hr', rfl⟩
      have hr'2 := mem_sort_by_key.1 hr'
      rcases List.mem_map.1 hr'2 with ⟨r, hrg, rfl⟩
      have hdep := (hrootspec r hrg).2.2 p n dd cc k hitem
      have hz := hrzero r hrg
      omega

/-- **C8** (counterexample to the claim as stated).  `orphanTree` is built
by `new_with_groups` with no group collapsed, and the empty instance list
trivially has all its non-empty group paths in the tree; yet `flatten_tree`
emits no `Group` item at all for the mapping key `"a/b"`, because the
orphaned key is unreachable from the derived roots. -/
theorem c8_counterexample :
    containsKey orphanTree.groups_by_path "a/b" = true
    ∧ lookupA orphanTree.groups_by_path "a/b" = some (Group.mk "b" "a/b" false [])
    ∧ flatten_tree orphanTree [] SortOrder.None = [] :=
  ⟨rfl, rfl, rfl⟩

/-- **C8** (amended).  For a tree built by `new_with_groups` from
duplicate-free, prefix-closed, non-empty, expanded existing groups and
from instances whose group paths do not start with `"/"`, and for every
instance list whose non-empty group paths exist in the tree: `flatten_tree`
emits exactly one `Group` item per mapping key (the emitted group paths are
a permutation of the duplicate-free insertion order, which enumerates the
mapping keys) and exactly one `Session` item per instance; ungrouped
sessions come first at depth 0; every `Group` item sits at depth equal to
the number of `/` in its path; and an expanded group's direct sessions and
child groups are emitted at its depth plus one. -/
theorem c8_theorem (bi insts : List Instance) (gs : List Group) (s : SortOrder)
    (hnd : (gs.map Group.path).Nodup)
    (hclosed : closedUnderParents (gs.map Group.path))
    (hne : ∀ g ∈ gs, g.path ≠ "")
    (hcol : ∀ g ∈ gs, g.collapsed = false)
    (hbi : ∀ i ∈ bi, strStartsWith i.group_path "/" = false)
    (hexists : ∀ i ∈ insts, i.group_path ≠ "" →
      containsKey (GroupTree.new_with_groups bi gs).groups_by_path i.group_path = true) :
    List.Perm
      ((flatten_tree (GroupTree.new_with_groups bi gs) insts s).filterMap groupPathOf)
      (GroupTree.new_with_groups bi gs).insertion_order
    ∧ (GroupTree.new_with_groups bi gs).insertion_order.Nodup
    ∧ (∀ q, q ∈ (GroupTree.new_with_groups bi gs).insertion_order ↔
        containsKey (GroupTree.new_with_groups bi gs).groups_by_path q = true)
    ∧ List.Perm
        ((flatten_tree (GroupTree.new_with_groups bi gs) insts s).filterMap sessionIdOf)
        (insts.map Instance.id)
    ∧ (∃ rest, flatten_tree (GroupTree.new_with_groups bi gs) insts s
        = (sort_by_key (insts.filter fun i => i.group_path == "") s
            fun i => i.title).map (fun i => Item.Session i.id 0) ++ rest)
    ∧ (∀ p n dd cc k, Item.Group p n dd cc k ∈
          flatten_tree (GroupTree.new_with_groups bi gs) insts s → dd = slashCount p)
    ∧ (∀ g d, g.collapsed = false →
        flatten_group g insts d s
          = Item.Group g.path g.name d false (count_sessions_in_group g.path insts)
            :: ((sort_by_key (insts.filter fun i => i.group_path == g.path) s
                  fun i => i.title).map (fun i => Item.Session i.id (d + 1))
              ++ ((sort_by_key g.children s Group.name).map
                    fun c => flatten_group c insts (d + 1) s).flatten)) := by
  rcases new_with_groups_invariants bi gs hnd hclosed hne hcol hbi with
    ⟨i1, i2, i3, i4, i5⟩
  rcases rebuild_flatten_spec
      (bi.foldl ensureInstance (gs.foldl registerGroup ⟨[], [], []⟩)) insts s
      i1 i2 i3 i4 i5 hexists with ⟨hA, hB, hC⟩
  refine ⟨hA, i1, i2, hB, ⟨_, flatten_tree_eq _ insts s⟩, hC, ?_⟩
  intro g d hgc
  rw [flatten_group_eq, if_neg (by rw [hgc]; exact Bool.false_ne_true), hgc]

theorem c8_witness :
    (([] : List Group).map Group.path).Nodup
    ∧ closedUnderParents (([] : List Group).map Group.path)
    ∧ (∀ i ∈ c8insts, strStartsWith i.group_path "/" = false)
    ∧ (∀ i ∈ c8insts, i.group_path ≠ "" →
        containsKey (GroupTree.new_with_groups c8insts []).groups_by_path
          i.group_path = true)
    ∧ List.Perm
        ((flatten_tree (GroupTree.new_with_groups c8insts []) c8insts
            SortOrder.None).filterMap groupPathOf)
        (GroupTree.new_with_groups c8insts []).insertion_order
    ∧ List.Perm
        ((flatten_tree (GroupTree.new_with_groups c8insts []) c8insts
            SortOrder.None).filterMap sessionIdOf)
        (c8insts.map Instance.id) :=
  ⟨by decide, by decide, by decide, by decide,
    (c8_theorem c8insts c8insts [] SortOrder.None (by decide) (by decide) (by decide)
      (by decide) (by decide) (by decide)).1,
    (c8_theorem c8insts c8insts [] SortOrder.None (by decide) (by decide) (by decide)
      (by decide) (by decide) (by decide)).2.2.2.1⟩

end Aoe
